import Mathlib

/-!
Shallow embedding of the `flat_map` container (src/Flat_map/flat_map.h).

The container stores key/value pairs in one contiguous sorted buffer
(`std::vector<std::pair<K, V>> m_data`).  We model the buffer as a
`List (K × V)` together with the vector's capacity; the comparator
`std::less<K>` is modelled by a `LinearOrder` on the key type.  The
`KeyOrValueCompare` helper of the source compares any mix of keys and
entries by key only; in the embedding every comparison is therefore
written directly on the key components.

Standard-library calls are modelled by their specified behaviour:
`std::lower_bound` by the first index whose element is not ordered
before the searched value, `std::stable_sort` by a stable sorting
algorithm (insertion sort), `std::inplace_merge` by a stable merge of
two sorted ranges, `std::unique` by the keep-first consecutive filter
with the predicate the source passes (`not2(value_compare)`), and
`std::vector` growth by the doubling rule used by libstdc++ (the claims
proved below about entry sequences do not depend on the growth rule).
-/

namespace FlatMap

variable {K V : Type} [LinearOrder K]

/-- The sorted-unique invariant I1: entries are strictly ascending by key
(hence no two entries have equal keys). -/
def SortedU (l : List (K × V)) : Prop :=
  l.Pairwise (fun a b => a.1 < b.1)

/-- Weak sortedness by key (duplicates allowed); the state of the buffer
suffix after `std::stable_sort` and of the whole buffer right after
`std::inplace_merge`, before `std::unique` runs. -/
def WSorted (l : List (K × V)) : Prop :=
  l.Pairwise (fun a b => a.1 ≤ b.1)

instance decSortedU (l : List (K × V)) : Decidable (SortedU l) := by
  unfold SortedU
  infer_instance

instance decWSorted (l : List (K × V)) : Decidable (WSorted l) := by
  unfold WSorted
  infer_instance

/-- `m_data` together with the vector capacity; `hle` is the
`std::vector` invariant `size() ≤ capacity()`. -/
structure FM (K V : Type) where
  data : List (K × V)
  cap : ℕ
  hle : data.length ≤ cap

omit [LinearOrder K] in
theorem FM.eq_of (s t : FM K V) (h1 : s.data = t.data) (h2 : s.cap = t.cap) :
    s = t := by
  cases s; cases t; simp_all

/-- Result of `std::lower_bound(begin, end, k, comp)` on the buffer, as an
index: the first position whose element's key is not ordered before `k`.
(The source's binary search is modelled by its specified result.) -/
def lbIdx : List (K × V) → K → ℕ
  | [], _ => 0
  | a :: as, k => if a.1 < k then lbIdx as k + 1 else 0

/-- Capacity growth of `std::vector` on insertion at full capacity
(libstdc++ doubles, starting from 1). -/
def growCap (c : ℕ) : ℕ := if c = 0 then 1 else 2 * c

theorem lt_growCap (c : ℕ) : c < growCap c := by
  unfold growCap; split <;> omega

omit [LinearOrder K] in
theorem length_insertIdx_le (l : List (K × V)) (i : ℕ) (x : K × V) :
    (l.insertIdx i x).length ≤ l.length + 1 := by
  rcases le_or_lt i l.length with h | h
  · have h2 := @List.length_insertIdx _ x i l h
    omega
  · rw [List.insertIdx_of_length_lt l x i h]; omega

/-- `m_data.emplace(begin() + i, x)`: insert `x` at index `i`, growing the
capacity exactly when the vector was full. -/
def insAt (s : FM K V) (i : ℕ) (x : K × V) : FM K V :=
  ⟨s.data.insertIdx i x,
   if s.data.length = s.cap then growCap s.cap else s.cap,
   by
     by_cases h : s.data.length = s.cap <;> simp only [h, if_pos, if_neg, if_true, if_false]
     · have h1 := length_insertIdx_le s.data i x
       have h2 := lt_growCap s.cap
       omega
     · have h1 := length_insertIdx_le s.data i x
       have h2 := s.hle
       omega⟩

/-- Buffer-level effect of `emplace` (flat_map.h:510-521): locate
`lower_bound`; insert there when the position is `end()` or the found
key is strictly greater; otherwise leave the buffer unchanged. -/
def emplaceL (d : List (K × V)) (x : K × V) : List (K × V) :=
  match d[lbIdx d x.1]? with
  | none => d.insertIdx (lbIdx d x.1) x
  | some e => if x.1 < e.1 then d.insertIdx (lbIdx d x.1) x else d

/-- `emplace` (flat_map.h:510-521): returns the pair (index of the entry
with the candidate's key, whether insertion took place) and the new
state, exactly as the source returns `{iterator, bool}`. -/
def emplaceP (s : FM K V) (x : K × V) : (ℕ × Bool) × FM K V :=
  match s.data[lbIdx s.data x.1]? with
  | none => ((lbIdx s.data x.1, true), insAt s (lbIdx s.data x.1) x)
  | some e =>
    if x.1 < e.1 then ((lbIdx s.data x.1, true), insAt s (lbIdx s.data x.1) x)
    else ((lbIdx s.data x.1, false), s)

theorem emplaceP_data (s : FM K V) (x : K × V) :
    ((emplaceP s x).2).data = emplaceL s.data x := by
  unfold emplaceP emplaceL
  rcases h : s.data[lbIdx s.data x.1]? with _ | e
  · simp [insAt]
  · by_cases hx : x.1 < e.1 <;> simp [hx, insAt]

theorem emplaceP_cap_of_not_full (s : FM K V) (x : K × V)
    (h : s.data.length ≠ s.cap) : ((emplaceP s x).2).cap = s.cap := by
  unfold emplaceP
  rcases hm : s.data[lbIdx s.data x.1]? with _ | e
  · simp [insAt, h]
  · by_cases hx : x.1 < e.1 <;> simp [hx, insAt, h]

theorem lbIdx_le_length (d : List (K × V)) (k : K) : lbIdx d k ≤ d.length := by
  induction d with
  | nil => simp [lbIdx]
  | cons a as ih =>
    unfold lbIdx
    by_cases h : a.1 < k <;> simp [h, List.length_cons]
    omega

/-- Cons unfolding of `emplaceL`, used throughout the proofs. -/
theorem emplaceL_cons (a : K × V) (as : List (K × V)) (x : K × V) :
    emplaceL (a :: as) x =
      if a.1 < x.1 then a :: emplaceL as x
      else if x.1 < a.1 then x :: a :: as else a :: as := by
  by_cases h : a.1 < x.1
  · simp only [if_pos h]
    unfold emplaceL
    rw [show lbIdx (a :: as) x.1 = lbIdx as x.1 + 1 from by simp [lbIdx, h]]
    rcases hm : as[lbIdx as x.1]? with _ | e
    · simp [hm, List.insertIdx_succ_cons]
    · by_cases hx : x.1 < e.1 <;> simp [hm, hx, List.insertIdx_succ_cons]
  · simp only [if_neg h]
    unfold emplaceL
    rw [show lbIdx (a :: as) x.1 = 0 from by simp [lbIdx, h]]
    by_cases hx : x.1 < a.1 <;> simp [hx, List.insertIdx_zero]

theorem emplaceL_nil (x : K × V) : emplaceL ([] : List (K × V)) x = [x] := by
  unfold emplaceL lbIdx
  simp

/-- First stored entry whose key equals `k`: the logical content of the
container at key `k`. -/
def findE (l : List (K × V)) (k : K) : Option (K × V) :=
  l.find? (fun e => decide (e.1 = k))

/-- Left-biased choice, used to state first-write-wins facts. -/
def firstSome (a b : Option (K × V)) : Option (K × V) :=
  match a with
  | some x => some x
  | none => b

omit [LinearOrder K] in
theorem firstSome_none_right (a : Option (K × V)) : firstSome a none = a := by
  cases a <;> rfl

theorem findE_nil (k : K) : findE ([] : List (K × V)) k = none := rfl

theorem findE_cons (a : K × V) (as : List (K × V)) (k : K) :
    findE (a :: as) k = if a.1 = k then some a else findE as k := by
  unfold findE
  by_cases h : a.1 = k <;> simp [List.find?_cons, h]

theorem findE_eq_none (l : List (K × V)) (k : K) (h : ∀ e ∈ l, e.1 ≠ k) :
    findE l k = none := by
  unfold findE
  rw [List.find?_eq_none]
  intro e he
  simp [h e he]

theorem findE_mem (l : List (K × V)) (k : K) (e : K × V)
    (h : findE l k = some e) : e ∈ l ∧ e.1 = k := by
  refine ⟨List.mem_of_find?_eq_some h, ?_⟩
  have := List.find?_some h
  simpa using this

theorem sortedU_nil : SortedU ([] : List (K × V)) := List.Pairwise.nil

theorem sortedU_cons (a : K × V) (as : List (K × V)) :
    SortedU (a :: as) ↔ (∀ e ∈ as, a.1 < e.1) ∧ SortedU as :=
  List.pairwise_cons

theorem mem_emplaceL (d : List (K × V)) (x e : K × V)
    (h : e ∈ emplaceL d x) : e ∈ d ∨ e = x := by
  induction d with
  | nil => rw [emplaceL_nil] at h; simp at h; right; exact h
  | cons a as ih =>
    rw [emplaceL_cons] at h
    by_cases h1 : a.1 < x.1
    · simp only [if_pos h1, List.mem_cons] at h
      rcases h with h | h
      · left; simp [h]
      · rcases ih h with h2 | h2
        · left; simp [h2]
        · right; exact h2
    · simp only [if_neg h1] at h
      by_cases h2 : x.1 < a.1
      · rw [if_pos h2] at h
        rcases List.mem_cons.1 h with h3 | h3
        · right; exact h3
        · left; exact h3
      · rw [if_neg h2] at h
        left; exact h

theorem emplaceL_sorted (d : List (K × V)) (x : K × V) (hd : SortedU d) :
    SortedU (emplaceL d x) := by
  induction d with
  | nil => rw [emplaceL_nil]; exact List.pairwise_singleton _ x
  | cons a as ih =>
    rw [sortedU_cons] at hd
    rw [emplaceL_cons]
    by_cases h1 : a.1 < x.1
    · simp only [if_pos h1]
      rw [sortedU_cons]
      refine ⟨?_, ih hd.2⟩
      intro e he
      rcases mem_emplaceL as x e he with h2 | h2
      · exact hd.1 e h2
      · rw [h2]; exact h1
    · simp only [if_neg h1]
      by_cases h2 : x.1 < a.1 <;> simp only [h2, if_pos, if_neg, if_true, if_false]
      · rw [sortedU_cons]
        refine ⟨?_, (sortedU_cons a as).2 hd⟩
        intro e he
        rcases List.mem_cons.1 he with h3 | h3
        · rw [h3]; exact h2
        · exact lt_trans h2 (hd.1 e h3)
      · exact (sortedU_cons a as).2 hd

theorem findE_emplaceL (d : List (K × V)) (x : K × V) (k : K) (hd : SortedU d) :
    findE (emplaceL d x) k =
      firstSome (findE d k) (if k = x.1 then some x else none) := by
  induction d with
  | nil =>
    rw [emplaceL_nil, findE_cons, findE_nil]
    by_cases h : k = x.1 <;> simp [h, firstSome, eq_comm]
  | cons a as ih =>
    rw [sortedU_cons] at hd
    rw [emplaceL_cons]
    by_cases h1 : a.1 < x.1
    · simp only [if_pos h1]
      rw [findE_cons, findE_cons]
      by_cases h2 : a.1 = k
      · simp [h2, firstSome]
      · simp only [if_neg h2]
        exact ih hd.2
    · simp only [if_neg h1]
      by_cases h2 : x.1 < a.1 <;> simp only [h2, if_pos, if_neg, if_true, if_false]
      · rw [findE_cons]
        by_cases h3 : x.1 = k
        · simp only [if_pos h3]
          have hnone : findE (a :: as) k = none := by
            apply findE_eq_none
            intro e he
            rcases List.mem_cons.1 he with h4 | h4
            · rw [h4]; rw [← h3]; exact ne_of_gt h2
            · rw [← h3]; exact ne_of_gt (lt_trans h2 (hd.1 e h4))
          rw [hnone]
          simp [firstSome, h3]
        · simp only [if_neg h3]
          rw [if_neg (fun h => h3 h.symm), firstSome_none_right]
      · have hax : a.1 = x.1 := le_antisymm (not_lt.1 h2) (not_lt.1 h1)
        by_cases h3 : k = x.1
        · have : findE (a :: as) k = some a := by
            rw [findE_cons, if_pos (by rw [hax, h3])]
          rw [this]; simp [firstSome]
        · rw [if_neg h3, firstSome_none_right]

theorem lbIdx_lt_spec (d : List (K × V)) (k : K) (j : ℕ) (hj : j < lbIdx d k) :
    ∃ e, d[j]? = some e ∧ e.1 < k := by
  induction d generalizing j with
  | nil => simp [lbIdx] at hj
  | cons a as ih =>
    by_cases h : a.1 < k
    · rw [show lbIdx (a :: as) k = lbIdx as k + 1 from by simp [lbIdx, h]] at hj
      rcases j with _ | j
      · exact ⟨a, by simp, h⟩
      · have := ih j (by omega)
        simpa using this
    · rw [show lbIdx (a :: as) k = 0 from by simp [lbIdx, h]] at hj
      omega

theorem lbIdx_at_spec (d : List (K × V)) (k : K) (e : K × V)
    (he : d[lbIdx d k]? = some e) : ¬ e.1 < k := by
  induction d with
  | nil => simp at he
  | cons a as ih =>
    by_cases h : a.1 < k
    · rw [show lbIdx (a :: as) k = lbIdx as k + 1 from by simp [lbIdx, h]] at he
      simp only [List.getElem?_cons_succ] at he
      exact ih he
    · rw [show lbIdx (a :: as) k = 0 from by simp [lbIdx, h]] at he
      simp only [List.getElem?_cons_zero, Option.some.injEq] at he
      rw [← he]; exact h

theorem sortedU_getElem (d : List (K × V)) (hd : SortedU d) (i j : ℕ)
    (hi : i < d.length) (hj : j < d.length) (hij : i < j) :
    (d.get ⟨i, hi⟩).1 < (d.get ⟨j, hj⟩).1 := by
  have := (List.pairwise_iff_getElem).1 hd i j hi hj hij
  simpa using this

omit [LinearOrder K] in
theorem mem_getElem (d : List (K × V)) (e : K × V) (he : e ∈ d) :
    ∃ i, ∃ hi : i < d.length, d.get ⟨i, hi⟩ = e := by
  rcases List.getElem_of_mem he with ⟨i, hi, h⟩
  exact ⟨i, hi, h⟩

omit [LinearOrder K] in
theorem getElem?_some_iff (d : List (K × V)) (i : ℕ) (e : K × V) :
    d[i]? = some e ↔ ∃ hi : i < d.length, d.get ⟨i, hi⟩ = e := by
  constructor
  · intro h
    have hi : i < d.length := by
      by_contra hc
      rw [List.getElem?_eq_none (by omega)] at h
      exact Option.noConfusion h
    refine ⟨hi, ?_⟩
    rw [List.getElem?_eq_getElem hi] at h
    simpa [List.get_eq_getElem] using h
  · rintro ⟨hi, h⟩
    subst h
    simp [List.getElem?_eq_getElem hi, List.get_eq_getElem]

/-- No entry of a sorted buffer has the searched key exactly when `emplace`
reports an insertion. -/
theorem emplaceP_inserted_iff (s : FM K V) (x : K × V) (hs : SortedU s.data) :
    (emplaceP s x).1.2 = true ↔ ∀ e ∈ s.data, e.1 ≠ x.1 := by
  unfold emplaceP
  rcases hm : s.data[lbIdx s.data x.1]? with _ | e
  · refine iff_of_true rfl ?_
    have hlen : lbIdx s.data x.1 = s.data.length := by
      have h1 := lbIdx_le_length s.data x.1
      by_contra hc
      have hlt : lbIdx s.data x.1 < s.data.length := by omega
      rw [List.getElem?_eq_getElem hlt] at hm
      exact Option.noConfusion hm
    intro e he
    rcases mem_getElem s.data e he with ⟨i, hi, hie⟩
    rcases lbIdx_lt_spec s.data x.1 i (by omega) with ⟨f, hf, hfx⟩
    rcases (getElem?_some_iff _ _ _).1 hf with ⟨hi2, hif⟩
    rw [show f = e from by rw [← hif, ← hie]] at hfx
    exact ne_of_lt hfx
  · by_cases hx : x.1 < e.1 <;> simp only [hx, if_pos, if_neg, if_true, if_false]
    · refine iff_of_true (by simp) ?_
      rcases (getElem?_some_iff _ _ _).1 hm with ⟨hlb, hlbe⟩
      intro f hf
      rcases mem_getElem s.data f hf with ⟨i, hi, hif⟩
      rcases lt_trichotomy i (lbIdx s.data x.1) with h1 | h1 | h1
      · rcases lbIdx_lt_spec s.data x.1 i h1 with ⟨g, hg, hgx⟩
        rcases (getElem?_some_iff _ _ _).1 hg with ⟨hi2, hig⟩
        rw [show g = f from by rw [← hig, ← hif]] at hgx
        exact ne_of_lt hgx
      · subst h1
        rw [show f = e from by rw [← hif, ← hlbe]]
        exact ne_of_gt hx
      · have := sortedU_getElem s.data hs (lbIdx s.data x.1) i hlb hi h1
        rw [hlbe, hif] at this
        exact ne_of_gt (lt_trans hx this)
    · have he1 : e.1 = x.1 :=
        le_antisymm (not_lt.1 hx) (not_lt.1 (lbIdx_at_spec s.data x.1 e hm))
      rcases (getElem?_some_iff _ _ _).1 hm with ⟨hlb, hlbe⟩
      have hmem : e ∈ s.data := by rw [← hlbe]; exact List.get_mem _ _ _
      refine iff_of_false (by simp) ?_
      push_neg
      exact ⟨e, hmem, he1⟩

/-- When `emplace` does not insert, the container is unchanged. -/
theorem emplaceP_not_inserted (s : FM K V) (x : K × V)
    (h : (emplaceP s x).1.2 = false) : (emplaceP s x).2 = s := by
  unfold emplaceP at *
  rcases hm : s.data[lbIdx s.data x.1]? with _ | e <;> rw [hm] at h
  · simp at h
  · by_cases hx : x.1 < e.1 <;> simp [hx] at h ⊢

/-- The iterator returned by `emplace` designates the entry whose key is the
candidate's key. -/
theorem emplaceP_pos (s : FM K V) (x : K × V) :
    ∃ v, ((emplaceP s x).2).data[(emplaceP s x).1.1]? = some (x.1, v) := by
  unfold emplaceP
  have hle := lbIdx_le_length s.data x.1
  rcases hm : s.data[lbIdx s.data x.1]? with _ | e
  · refine ⟨x.2, ?_⟩
    simp only [insAt]
    rw [(getElem?_some_iff _ _ _).2 ⟨?_, ?_⟩]
    · rw [@List.length_insertIdx _ x _ _ hle]; omega
    · rw [List.get_eq_getElem, List.getElem_insertIdx_self s.data x _ hle]
  · by_cases hx : x.1 < e.1 <;> simp only [hx, if_pos, if_neg, if_true, if_false]
    · refine ⟨x.2, ?_⟩
      simp only [insAt]
      rw [(getElem?_some_iff _ _ _).2 ⟨?_, ?_⟩]
      · rw [@List.length_insertIdx _ x _ _ hle]; omega
      · rw [List.get_eq_getElem, List.getElem_insertIdx_self s.data x _ hle]
    · have he1 : e.1 = x.1 :=
        le_antisymm (not_lt.1 hx) (not_lt.1 (lbIdx_at_spec s.data x.1 e hm))
      exact ⟨e.2, by rw [hm, ← he1]⟩

/-- One insertion step of the stable sort: `x` is placed before the first
element whose key is not smaller, so an earlier input element precedes
later equal-keyed ones. -/
def sIns (x : K × V) : List (K × V) → List (K × V)
  | [] => [x]
  | y :: ys => if y.1 < x.1 then y :: sIns x ys else x :: y :: ys

/-- Model of `std::stable_sort(mid, end, value_compare)` on the appended
suffix.  `std::stable_sort` is specified by its result — sorted, equal
elements in their original relative order — and insertion sort computes
exactly that result. -/
def isort : List (K × V) → List (K × V)
  | [] => []
  | x :: xs => sIns x (isort xs)

theorem wsorted_nil : WSorted ([] : List (K × V)) := List.Pairwise.nil

theorem wsorted_cons (a : K × V) (as : List (K × V)) :
    WSorted (a :: as) ↔ (∀ e ∈ as, a.1 ≤ e.1) ∧ WSorted as :=
  List.pairwise_cons

theorem sortedU_wsorted (l : List (K × V)) (h : SortedU l) : WSorted l :=
  h.imp le_of_lt

theorem mem_sIns (x e : K × V) (s : List (K × V)) (h : e ∈ sIns x s) :
    e ∈ s ∨ e = x := by
  induction s with
  | nil => simp [sIns] at h; right; exact h
  | cons y ys ih =>
    unfold sIns at h
    by_cases h1 : y.1 < x.1
    · rw [if_pos h1] at h
      rcases List.mem_cons.1 h with h2 | h2
      · left; simp [h2]
      · rcases ih h2 with h3 | h3
        · left; simp [h3]
        · right; exact h3
    · rw [if_neg h1] at h
      rcases List.mem_cons.1 h with h2 | h2
      · right; exact h2
      · left; exact h2

theorem sIns_wsorted (x : K × V) (s : List (K × V)) (hs : WSorted s) :
    WSorted (sIns x s) := by
  induction s with
  | nil => exact List.pairwise_singleton _ x
  | cons y ys ih =>
    rw [wsorted_cons] at hs
    unfold sIns
    by_cases h1 : y.1 < x.1
    · rw [if_pos h1, wsorted_cons]
      refine ⟨?_, ih hs.2⟩
      intro e he
      rcases mem_sIns x e ys he with h2 | h2
      · exact hs.1 e h2
      · rw [h2]; exact le_of_lt h1
    · rw [if_neg h1, wsorted_cons]
      refine ⟨?_, (wsorted_cons y ys).2 hs⟩
      intro e he
      rcases List.mem_cons.1 he with h2 | h2
      · rw [h2]; exact not_lt.1 h1
      · exact le_trans (not_lt.1 h1) (hs.1 e h2)

theorem isort_wsorted (b : List (K × V)) : WSorted (isort b) := by
  induction b with
  | nil => exact wsorted_nil
  | cons x xs ih => exact sIns_wsorted x (isort xs) ih

theorem findE_sIns (x : K × V) (s : List (K × V)) (k : K) :
    findE (sIns x s) k = if k = x.1 then some x else findE s k := by
  induction s with
  | nil =>
    show findE [x] k = _
    rw [findE_cons, findE_nil]
    by_cases h : k = x.1 <;> simp [h, eq_comm]
  | cons y ys ih =>
    unfold sIns
    by_cases h1 : y.1 < x.1
    · rw [if_pos h1, findE_cons, ih, findE_cons]
      by_cases h2 : k = x.1
      · rw [if_pos h2, if_pos h2, if_neg (by rw [h2]; exact ne_of_lt h1)]
      · rw [if_neg h2, if_neg h2]
    · rw [if_neg h1, findE_cons]
      by_cases h2 : k = x.1
      · rw [if_pos h2, if_pos h2.symm]
      · rw [if_neg h2, if_neg (fun h => h2 h.symm), findE_cons]

theorem findE_isort (b : List (K × V)) (k : K) :
    findE (isort b) k = findE b k := by
  induction b with
  | nil => rfl
  | cons x xs ih =>
    show findE (sIns x (isort xs)) k = _
    rw [findE_sIns, ih, findE_cons]
    by_cases h : k = x.1
    · rw [if_pos h, if_pos h.symm]
    · rw [if_neg h, if_neg (fun hh => h hh.symm)]

omit [LinearOrder K] in
theorem length_sIns' (x : K × V) (s : List (K × V)) [LinearOrder K] :
    (sIns x s).length = s.length + 1 := by
  induction s with
  | nil => rfl
  | cons y ys ih =>
    unfold sIns
    by_cases h1 : y.1 < x.1 <;> simp [h1, ih]

theorem length_isort (b : List (K × V)) : (isort b).length = b.length := by
  induction b with
  | nil => rfl
  | cons x xs ih =>
    show (sIns x (isort xs)).length = _
    rw [length_sIns', ih, List.length_cons]

/-- Model of `std::inplace_merge(begin, mid, end, value_compare)`: stable
merge of two consecutive sorted ranges (an element of the first range
precedes an equal-keyed element of the second).  The structural counter
starts at the exact number of remaining elements so the recurrence
`mergeS_cons_cons` holds definitionally; the zero-counter arm is never
reached. -/
def mergeAux : ℕ → List (K × V) → List (K × V) → List (K × V)
  | _, [], r => r
  | _, a :: as, [] => a :: as
  | 0, a :: as, b :: bs => a :: as ++ b :: bs
  | f + 1, a :: as, b :: bs =>
    if b.1 < a.1 then b :: mergeAux f (a :: as) bs else a :: mergeAux f as (b :: bs)

def mergeS (l r : List (K × V)) : List (K × V) := mergeAux (l.length + r.length) l r

theorem mergeS_nil_left (r : List (K × V)) : mergeS [] r = r := by
  cases r <;> rfl

theorem mergeS_nil_right (l : List (K × V)) : mergeS l [] = l := by
  cases l <;> rfl

theorem mergeS_cons_cons (a b : K × V) (as bs : List (K × V)) :
    mergeS (a :: as) (b :: bs) =
      if b.1 < a.1 then b :: mergeS (a :: as) bs else a :: mergeS as (b :: bs) := by
  show mergeAux ((a :: as).length + (b :: bs).length) (a :: as) (b :: bs) = _
  rw [show (a :: as).length + (b :: bs).length = (as.length + (b :: bs).length) + 1 from by
    simp [List.length_cons]; omega]
  show (if b.1 < a.1 then b :: mergeAux (as.length + (b :: bs).length) (a :: as) bs
        else a :: mergeAux (as.length + (b :: bs).length) as (b :: bs)) = _
  by_cases h : b.1 < a.1
  · rw [if_pos h, if_pos h]
    rw [show as.length + (b :: bs).length = (a :: as).length + bs.length from by
      simp [List.length_cons]; omega]
    rfl
  · rw [if_neg h, if_neg h]
    rfl

theorem length_mergeS (l r : List (K × V)) :
    (mergeS l r).length = l.length + r.length := by
  induction l generalizing r with
  | nil => rw [mergeS_nil_left]; simp
  | cons a as ihl =>
    induction r with
    | nil => rw [mergeS_nil_right]; simp
    | cons b bs ihr =>
      rw [mergeS_cons_cons]
      by_cases h : b.1 < a.1 <;> simp only [h, if_pos, if_neg, if_true, if_false]
      · rw [List.length_cons, ihr]
        simp [List.length_cons]; omega
      · rw [List.length_cons, ihl (b :: bs)]
        simp [List.length_cons]; omega

theorem mem_mergeS (l r : List (K × V)) (e : K × V) (h : e ∈ mergeS l r) :
    e ∈ l ∨ e ∈ r := by
  induction l generalizing r with
  | nil => rw [mergeS_nil_left] at h; right; exact h
  | cons a as ihl =>
    induction r with
    | nil => rw [mergeS_nil_right] at h; left; exact h
    | cons b bs ihr =>
      rw [mergeS_cons_cons] at h
      by_cases h1 : b.1 < a.1 <;> simp only [h1, if_pos, if_neg, if_true, if_false] at h
      · rcases List.mem_cons.1 h with h2 | h2
        · right; simp [h2]
        · rcases ihr h2 with h3 | h3
          · left; exact h3
          · right; simp [h3]
      · rcases List.mem_cons.1 h with h2 | h2
        · left; simp [h2]
        · rcases ihl (b :: bs) h2 with h3 | h3
          · left; simp [h3]
          · right; exact h3

theorem mergeS_wsorted (l r : List (K × V)) (hl : WSorted l) (hr : WSorted r) :
    WSorted (mergeS l r) := by
  induction l generalizing r with
  | nil => rw [mergeS_nil_left]; exact hr
  | cons a as ihl =>
    induction r with
    | nil => rw [mergeS_nil_right]; exact hl
    | cons b bs ihr =>
      rw [wsorted_cons] at hl hr
      rw [mergeS_cons_cons]
      by_cases h1 : b.1 < a.1 <;> simp only [h1, if_pos, if_neg, if_true, if_false]
      · rw [wsorted_cons]
        refine ⟨?_, ihr hr.2⟩
        intro e he
        rcases mem_mergeS _ _ e he with h2 | h2
        · rcases List.mem_cons.1 h2 with h3 | h3
          · rw [h3]; exact le_of_lt h1
          · exact le_trans (le_of_lt h1) (hl.1 e h3)
        · exact hr.1 e h2
      · rw [wsorted_cons]
        refine ⟨?_, ihl (b :: bs) hl.2 ((wsorted_cons b bs).2 hr)⟩
        intro e he
        rcases mem_mergeS _ _ e he with h2 | h2
        · exact hl.1 e h2
        · rcases List.mem_cons.1 h2 with h3 | h3
          · rw [h3]; exact not_lt.1 h1
          · exact le_trans (not_lt.1 h1) (hr.1 e h3)

theorem findE_mergeS (l r : List (K × V)) (k : K) (hl : WSorted l) :
    findE (mergeS l r) k = firstSome (findE l k) (findE r k) := by
  induction l generalizing r with
  | nil => rw [mergeS_nil_left, findE_nil]; rfl
  | cons a as ihl =>
    induction r with
    | nil => rw [mergeS_nil_right, findE_nil, firstSome_none_right]
    | cons b bs ihr =>
      rw [wsorted_cons] at hl
      rw [mergeS_cons_cons]
      by_cases h1 : b.1 < a.1 <;> simp only [h1, if_pos, if_neg, if_true, if_false]
      · rw [findE_cons]
        by_cases h2 : b.1 = k
        · have hnone : findE (a :: as) k = none := by
            apply findE_eq_none
            intro e he
            rcases List.mem_cons.1 he with h3 | h3
            · rw [h3, ← h2]; exact (ne_of_lt h1).symm
            · rw [← h2]
              exact (ne_of_lt (lt_of_lt_of_le h1 (hl.1 e h3))).symm
          rw [if_pos h2, hnone, findE_cons, if_pos h2]
          rfl
        · rw [if_neg h2, ihr, findE_cons b bs k, if_neg h2]
      · rw [findE_cons, findE_cons]
        by_cases h2 : a.1 = k
        · simp only [if_pos h2]; rfl
        · simp only [if_neg h2]
          rw [ihl (b :: bs) hl.2]

/-- Model of the duplicate-elimination step
`m_data.erase(std::unique(begin, end, not2(value_compare)), end)`:
`std::unique` keeps the first element of the buffer and drops every later
element related to the last kept one by the predicate; the predicate here
is "the earlier key is not less than the later key". -/
def uniqGo (kept : K × V) : List (K × V) → List (K × V)
  | [] => []
  | y :: ys => if kept.1 < y.1 then y :: uniqGo y ys else uniqGo kept ys

def uniqNL : List (K × V) → List (K × V)
  | [] => []
  | x :: xs => x :: uniqGo x xs

theorem mem_uniqGo (kept e : K × V) (ys : List (K × V)) (h : e ∈ uniqGo kept ys) :
    e ∈ ys := by
  induction ys generalizing kept with
  | nil => simp [uniqGo] at h
  | cons y ys ih =>
    unfold uniqGo at h
    by_cases h1 : kept.1 < y.1
    · rw [if_pos h1] at h
      rcases List.mem_cons.1 h with h2 | h2
      · simp [h2]
      · simp [ih y h2]
    · rw [if_neg h1] at h
      simp [ih kept h]

theorem length_uniqGo_le (kept : K × V) (ys : List (K × V)) :
    (uniqGo kept ys).length ≤ ys.length := by
  induction ys generalizing kept with
  | nil => simp [uniqGo]
  | cons y ys ih =>
    unfold uniqGo
    by_cases h1 : kept.1 < y.1
    · rw [if_pos h1, List.length_cons, List.length_cons]
      exact Nat.succ_le_succ (ih y)
    · rw [if_neg h1, List.length_cons]
      exact le_trans (ih kept) (Nat.le_succ _)

theorem length_uniqNL_le (l : List (K × V)) : (uniqNL l).length ≤ l.length := by
  cases l with
  | nil => simp [uniqNL]
  | cons x xs =>
    show (x :: uniqGo x xs).length ≤ _
    rw [List.length_cons, List.length_cons]
    exact Nat.succ_le_succ (length_uniqGo_le x xs)

theorem uniqGo_sorted (kept : K × V) (ys : List (K × V))
    (h : WSorted (kept :: ys)) : SortedU (kept :: uniqGo kept ys) := by
  induction ys generalizing kept with
  | nil => exact List.pairwise_singleton _ kept
  | cons y ys ih =>
    rw [wsorted_cons] at h
    have hys : WSorted (y :: ys) := h.2
    rw [wsorted_cons] at hys
    unfold uniqGo
    by_cases h1 : kept.1 < y.1
    · rw [if_pos h1, sortedU_cons]
      refine ⟨?_, ih y h.2⟩
      intro e he
      rcases List.mem_cons.1 he with h2 | h2
      · rw [h2]; exact h1
      · exact lt_of_lt_of_le h1 (hys.1 e (mem_uniqGo y e ys h2))
    · rw [if_neg h1]
      apply ih kept
      rw [wsorted_cons]
      refine ⟨?_, hys.2⟩
      intro e he
      exact le_trans (h.1 y (List.mem_cons_self y ys)) (hys.1 e he)

theorem uniqNL_sorted (l : List (K × V)) (h : WSorted l) : SortedU (uniqNL l) := by
  cases l with
  | nil => exact sortedU_nil
  | cons x xs => exact uniqGo_sorted x xs h

theorem findE_uniqGo (kept : K × V) (ys : List (K × V)) (k : K)
    (h : WSorted (kept :: ys)) :
    findE (kept :: uniqGo kept ys) k = findE (kept :: ys) k := by
  induction ys generalizing kept with
  | nil => rfl
  | cons y ys ih =>
    rw [wsorted_cons] at h
    have hys : WSorted (y :: ys) := h.2
    rw [wsorted_cons] at hys
    unfold uniqGo
    by_cases h1 : kept.1 < y.1
    · rw [if_pos h1, findE_cons, ih y h.2, findE_cons,
        findE_cons kept (y :: ys) k, findE_cons y ys k]
    · have hky : kept.1 = y.1 :=
        le_antisymm (h.1 y (List.mem_cons_self y ys)) (not_lt.1 h1)
      rw [if_neg h1]
      have htail : WSorted (kept :: ys) := by
        rw [wsorted_cons]
        refine ⟨?_, hys.2⟩
        intro e he
        exact le_trans (h.1 y (List.mem_cons_self y ys)) (hys.1 e he)
      rw [ih kept htail, findE_cons, findE_cons]
      by_cases h2 : kept.1 = k
      · rw [if_pos h2, if_pos h2]
      · rw [if_neg h2, if_neg h2, findE_cons, if_neg (by rw [← hky]; exact h2)]

theorem findE_uniqNL (l : List (K × V)) (k : K) (h : WSorted l) :
    findE (uniqNL l) k = findE l k := by
  cases l with
  | nil => rfl
  | cons x xs => exact findE_uniqGo x xs k h

omit [LinearOrder K] in
theorem firstSome_assoc (a b c : Option (K × V)) :
    firstSome (firstSome a b) c = firstSome a (firstSome b c) := by
  cases a <;> rfl

theorem findE_tail_none (a : K × V) (t : List (K × V)) (h : SortedU (a :: t)) :
    findE t a.1 = none := by
  rw [sortedU_cons] at h
  apply findE_eq_none
  intro e he
  exact ne_of_gt (h.1 e he)

/-- Two strictly sorted buffers with the same lookup function are equal:
the canonical-form argument used to compare the bulk path with the
one-at-a-time path. -/
theorem findE_ext (l1 : List (K × V)) (l2 : List (K × V)) (h1 : SortedU l1)
    (h2 : SortedU l2) (h : ∀ k, findE l1 k = findE l2 k) : l1 = l2 := by
  induction l1 generalizing l2 with
  | nil =>
    cases l2 with
    | nil => rfl
    | cons b t2 =>
      have hb := h b.1
      rw [findE_nil, findE_cons, if_pos rfl] at hb
      exact Option.noConfusion hb
  | cons a t1 ih =>
    cases l2 with
    | nil =>
      have ha := h a.1
      rw [findE_nil, findE_cons, if_pos rfl] at ha
      exact Option.noConfusion ha
    | cons b t2 =>
      have ha := h a.1
      rw [findE_cons, if_pos rfl] at ha
      have hb := h b.1
      rw [findE_cons b t2 b.1, if_pos rfl] at hb
      have hab : a = b := by
        by_cases hk : b.1 = a.1
        · rw [findE_cons, if_pos hk] at ha
          exact Option.some.inj ha
        · exfalso
          rw [findE_cons, if_neg hk] at ha
          have hmem2 := findE_mem t2 a.1 a ha.symm
          rw [findE_cons, if_neg (fun hh => hk hh.symm)] at hb
          have hmem1 := findE_mem t1 b.1 b hb
          rw [sortedU_cons] at h1 h2
          exact lt_asymm (h1.1 b hmem1.1) (h2.1 a hmem2.1)
      subst hab
      congr 1
      apply ih t2 ((sortedU_cons a t1).1 h1).2 ((sortedU_cons a t2).1 h2).2
      intro k
      by_cases hk : k = a.1
      · subst hk
        rw [findE_tail_none a t1 h1, findE_tail_none a t2 h2]
      · have hkk := h k
        rw [findE_cons, findE_cons, if_neg (fun hh => hk hh.symm),
            if_neg (fun hh => hk hh.symm)] at hkk
        exact hkk

theorem foldl_emplaceL_sorted (d b : List (K × V)) (hd : SortedU d) :
    SortedU (b.foldl emplaceL d) := by
  induction b generalizing d with
  | nil => exact hd
  | cons x xs ih => exact ih (emplaceL d x) (emplaceL_sorted d x hd)

theorem findE_foldl_emplaceL (d b : List (K × V)) (k : K) (hd : SortedU d) :
    findE (b.foldl emplaceL d) k = firstSome (findE d k) (findE b k) := by
  induction b generalizing d with
  | nil => rw [List.foldl_nil, findE_nil, firstSome_none_right]
  | cons x xs ih =>
    rw [List.foldl_cons, ih (emplaceL d x) (emplaceL_sorted d x hd),
        findE_emplaceL d x k hd, firstSome_assoc, findE_cons]
    congr 1
    by_cases h : k = x.1
    · rw [if_pos h, if_pos h.symm]; rfl
    · rw [if_neg h, if_neg (fun hh => h hh.symm)]; rfl

/-- The sort–merge–deduplicate pipeline applied to one appended batch
produces exactly the buffer obtained by emplacing the batch elements one
at a time, in order, into the sorted prefix. -/
theorem batch_eq_foldl (d b : List (K × V)) (hd : SortedU d) :
    uniqNL (mergeS d (isort b)) = b.foldl emplaceL d := by
  have hw := mergeS_wsorted d (isort b) (sortedU_wsorted d hd) (isort_wsorted b)
  apply findE_ext
  · exact uniqNL_sorted _ hw
  · exact foldl_emplaceL_sorted d b hd
  · intro k
    rw [findE_uniqNL _ k hw, findE_mergeS d (isort b) k (sortedU_wsorted d hd),
        findE_isort, findE_foldl_emplaceL d b k hd]

/-- An input element handed to bulk `insert`.  `good e` is an ordinary
entry; `pois k` is an entry whose construction (copying into the buffer)
throws — the "poison" scenario of the specification.  A poison element
still has a readable key `k`: comparisons such as those performed by
`std::lower_bound` use the referenced object without copying it. -/
inductive PElem (K V : Type) where
  | good : K × V → PElem K V
  | pois : K → PElem K V
deriving DecidableEq

/-- The key used by comparisons on an input element. -/
def PElem.key : PElem K V → K
  | .good e => e.1
  | .pois k => k

/-- `emplace(*it)` on a bulk-insert input element (flat_map.h:385, 413 and
510-521).  The binary search compares keys without constructing anything;
a poison element therefore throws exactly when the element would be
inserted, and by the strong guarantee of a single `std::vector` insertion
the buffer is unchanged in that case.  An `Except.error` value carries the
container state visible to the caller as the exception escapes. -/
def emplaceE (s : FM K V) : PElem K V → Except (FM K V) ((ℕ × Bool) × FM K V)
  | .good x => .ok (emplaceP s x)
  | .pois k =>
    match s.data[lbIdx s.data k]? with
    | none => .error s
    | some e => if k < e.1 then .error s else .ok ((lbIdx s.data k, false), s)

/-- The fast path of bulk `insert` (flat_map.h:384-386): while the vector
is full and input remains, insert one element at a time via `emplace`. -/
def fastPathE : FM K V → List (PElem K V) → Except (FM K V) (FM K V × List (PElem K V))
  | s, [] => .ok (s, [])
  | s, x :: xs =>
    if s.data.length = s.cap then
      match emplaceE s x with
      | .error t => .error t
      | .ok (_, t) => fastPathE t xs
    else .ok (s, x :: xs)

/-- The guarded append loop of bulk `insert` (flat_map.h:394-396):
`for (i = capacity(); i > size_before && begin != end; --i, ++begin)
m_data.emplace_back(*begin)`.  The counter argument is the number of
remaining iterations, `capacity() - size_before`.  Returns the buffer
including every element appended so far, the remaining input, and whether
a construction threw; a poison element always throws here because
`emplace_back` always constructs it (and by the strong guarantee of
`emplace_back` the failing call itself leaves the buffer unchanged). -/
def appendTry : List (K × V) → ℕ → List (PElem K V) →
    List (K × V) × List (PElem K V) × Bool
  | d, _, [] => (d, [], false)
  | d, 0, l => (d, l, false)
  | d, i + 1, .good e :: xs => appendTry (d ++ [e]) i xs
  | d, _ + 1, .pois k :: xs => (d, .pois k :: xs, true)

/-- The stuck-batch fallback loop of bulk `insert` (flat_map.h:411-418):
emplace remaining input elements one at a time until one insertion
succeeds, consuming the successful element as well, then stop. -/
def stuckLoopE : FM K V → List (PElem K V) → Except (FM K V) (FM K V × List (PElem K V))
  | s, [] => .ok (s, [])
  | s, x :: xs =>
    match emplaceE s x with
    | .error t => .error t
    | .ok ((_, true), t) => .ok (t, xs)
    | .ok ((_, false), t) => stuckLoopE t xs

omit [LinearOrder K] in
theorem appendTry_length (d : List (K × V)) (i : ℕ) (l : List (PElem K V)) :
    (appendTry d i l).1.length ≤ d.length + i := by
  induction l generalizing d i with
  | nil => simp [appendTry]
  | cons x xs ih =>
    rcases i with _ | i
    · cases x <;> simp [appendTry]
    · cases x with
      | good e =>
        show (appendTry (d ++ [e]) i xs).1.length ≤ _
        have := ih (d ++ [e]) i
        simp only [List.length_append, List.length_cons, List.length_nil] at this ⊢
        omega
      | pois k => simp [appendTry]

omit [LinearOrder K] in
theorem length_take_add_drop (d : List (K × V)) (n : ℕ) :
    (d.take n).length + (d.drop n).length = d.length := by
  simp [List.length_take, List.length_drop]
  omega

/-- One iteration of the outer loop of bulk `insert` (flat_map.h:381-418):
the fast path, the guarded append (whose catch block pops the buffer back
to `size_before` before rethrowing), the stable sort of the appended
suffix, the in-place merge, the duplicate elimination, and the
stuck-batch fallback.  The result is the state and remaining input handed
to the tail call `insert(begin, end)` at flat_map.h:419, or the state in
which an exception escapes. -/
def mergedOf (s1 : FM K V) (d2 : List (K × V)) : List (K × V) :=
  uniqNL (mergeS (d2.take s1.data.length) (isort (d2.drop s1.data.length)))

theorem mergedOf_le (s1 : FM K V) (d2 : List (K × V))
    (hd2 : d2.length ≤ s1.cap) : (mergedOf s1 d2).length ≤ s1.cap := by
  unfold mergedOf
  have h3 := length_uniqNL_le (mergeS (d2.take s1.data.length)
    (isort (d2.drop s1.data.length)))
  rw [length_mergeS, length_isort] at h3
  have h4 := length_take_add_drop d2 s1.data.length
  omega

def insertIterE (s : FM K V) (l : List (PElem K V)) :
    Except (FM K V) (FM K V × List (PElem K V)) :=
  match fastPathE s l with
  | .error t => .error t
  | .ok (s1, []) => .ok (s1, [])
  | .ok (s1, y :: ys) =>
      let p := appendTry s1.data (s1.cap - s1.data.length) (y :: ys)
      if p.2.2 then
        .error ⟨p.1.take s1.data.length, s1.cap, by
          have h3 := List.length_take s1.data.length p.1
          have h4 := s1.hle
          omega⟩
      else
        let s2 : FM K V := ⟨mergedOf s1 p.1, s1.cap, by
          apply mergedOf_le
          show (appendTry s1.data (s1.cap - s1.data.length) (y :: ys)).1.length ≤ s1.cap
          have h6 := appendTry_length s1.data (s1.cap - s1.data.length) (y :: ys)
          have h7 := s1.hle
          omega⟩
        if (mergedOf s1 p.1).length = s1.data.length then stuckLoopE s2 p.2.1
        else .ok (s2, p.2.1)

theorem fastPathE_ok (s : FM K V) (l : List (PElem K V)) (s1 : FM K V)
    (l1 : List (PElem K V)) (h : fastPathE s l = .ok (s1, l1)) :
    l1.length ≤ l.length ∧ (l1 ≠ [] → s1.data.length ≠ s1.cap) := by
  induction l generalizing s with
  | nil =>
    simp only [fastPathE, Except.ok.injEq, Prod.mk.injEq] at h
    rw [← h.2]
    exact ⟨le_refl _, fun hc => absurd rfl hc⟩
  | cons x xs ih =>
    unfold fastPathE at h
    by_cases hf : s.data.length = s.cap
    · rw [if_pos hf] at h
      rcases he : emplaceE s x with u | ⟨pb, u⟩ <;> rw [he] at h
      · exact absurd h (by simp)
      · have h2 := ih u h
        exact ⟨le_trans h2.1 (Nat.le_succ _), h2.2⟩
    · rw [if_neg hf] at h
      simp only [Except.ok.injEq, Prod.mk.injEq] at h
      rw [← h.2, ← h.1]
      exact ⟨le_refl _, fun _ => hf⟩

omit [LinearOrder K] in
theorem appendTry_rest (d : List (K × V)) (i : ℕ) (l : List (PElem K V)) :
    (appendTry d i l).2.1.length ≤ l.length ∧
      ((appendTry d i l).2.2 = false → 1 ≤ i → l ≠ [] →
        (appendTry d i l).2.1.length < l.length) := by
  induction l generalizing d i with
  | nil => simp [appendTry]
  | cons x xs ih =>
    rcases i with _ | i
    · constructor
      · cases x <;> simp [appendTry]
      · intro _ hi
        omega
    · cases x with
      | good e =>
        show (appendTry (d ++ [e]) i xs).2.1.length ≤ _ ∧ _
        refine ⟨le_trans (ih (d ++ [e]) i).1 (Nat.le_succ _), ?_⟩
        intro hth hi hne
        exact Nat.lt_succ_of_le (ih (d ++ [e]) i).1
      | pois k =>
        constructor
        · simp [appendTry]
        · intro hth
          simp [appendTry] at hth

theorem stuckLoopE_ok (s : FM K V) (l : List (PElem K V)) (t : FM K V)
    (l2 : List (PElem K V)) (h : stuckLoopE s l = .ok (t, l2)) :
    l2.length ≤ l.length := by
  induction l generalizing s with
  | nil =>
    simp only [stuckLoopE, Except.ok.injEq, Prod.mk.injEq] at h
    rw [← h.2]
  | cons x xs ih =>
    unfold stuckLoopE at h
    rcases he : emplaceE s x with u | ⟨⟨pi, pb⟩, u⟩ <;> rw [he] at h
    · exact absurd h (by simp)
    · cases pb
      · exact le_trans (ih u h) (Nat.le_succ _)
      · simp only [Except.ok.injEq, Prod.mk.injEq] at h
        rw [← h.2]
        exact Nat.le_succ _

theorem insertIterE_progress (s : FM K V) (l : List (PElem K V)) (t : FM K V)
    (l2 : List (PElem K V)) (h : insertIterE s l = .ok (t, l2)) (hne : l ≠ []) :
    l2.length < l.length := by
  unfold insertIterE at h
  rcases hf : fastPathE s l with u | ⟨s1, l1⟩ <;> rw [hf] at h
  · exact absurd h (by simp)
  · have hfp := fastPathE_ok s l s1 l1 hf
    cases l1 with
    | nil =>
      simp only [Except.ok.injEq, Prod.mk.injEq] at h
      rw [← h.2]
      simp only [List.length_nil]
      cases l with
      | nil => exact absurd rfl hne
      | cons z zs => simp
    | cons y ys =>
      have hnotfull := hfp.2 (by simp)
      have hcap : 1 ≤ s1.cap - s1.data.length := by
        have := s1.hle
        omega
      simp only at h
      by_cases hth : (appendTry s1.data (s1.cap - s1.data.length) (y :: ys)).2.2
      · rw [if_pos hth] at h
        exact absurd h (by simp)
      · rw [if_neg hth] at h
        have hrest := appendTry_rest s1.data (s1.cap - s1.data.length) (y :: ys)
        have hlt : (appendTry s1.data (s1.cap - s1.data.length) (y :: ys)).2.1.length <
            (y :: ys).length :=
          hrest.2 (by simpa using hth) hcap (by simp)
        by_cases hstuck : (mergedOf s1
            (appendTry s1.data (s1.cap - s1.data.length) (y :: ys)).1).length =
            s1.data.length
        · rw [if_pos hstuck] at h
          have := stuckLoopE_ok _ _ _ _ h
          omega
        · rw [if_neg hstuck] at h
          simp only [Except.ok.injEq, Prod.mk.injEq] at h
          rw [← h.2]
          omega

/-- Bulk `insert(begin, end)` (flat_map.h:381-420).  The outer loop is the
tail recursion at flat_map.h:419, modelled with a structural counter that
starts at the input length; `insertRangeE_eq` below shows the counter
never runs out, so the function satisfies exactly the recursion of the
source.  An `Except.error` result is an escaping exception carrying the
container state the caller observes. -/
def insertRangeAux : ℕ → FM K V → List (PElem K V) → Except (FM K V) (FM K V)
  | _, s, [] => .ok s
  | 0, s, _ :: _ => .ok s
  | fuel + 1, s, x :: xs =>
    match insertIterE s (x :: xs) with
    | .error t => .error t
    | .ok (t, l2) => insertRangeAux fuel t l2

def insertRangeE (s : FM K V) (l : List (PElem K V)) : Except (FM K V) (FM K V) :=
  insertRangeAux l.length s l

theorem insertRangeAux_fuel (f1 f2 : ℕ) (s : FM K V) (l : List (PElem K V))
    (h1 : l.length ≤ f1) (h2 : l.length ≤ f2) :
    insertRangeAux f1 s l = insertRangeAux f2 s l := by
  induction f1 generalizing f2 s l with
  | zero =>
    have : l = [] := by
      cases l with
      | nil => rfl
      | cons x xs => simp at h1
    rw [this]
    cases f2 <;> rfl
  | succ f1 ih =>
    cases l with
    | nil => cases f2 <;> rfl
    | cons x xs =>
      cases f2 with
      | zero => simp at h2
      | succ f2 =>
        show (match insertIterE s (x :: xs) with
          | Except.error t => (Except.error t : Except (FM K V) (FM K V))
          | Except.ok (t, l2) => insertRangeAux f1 t l2) =
          (match insertIterE s (x :: xs) with
          | Except.error t => Except.error t
          | Except.ok (t, l2) => insertRangeAux f2 t l2)
        rcases hi : insertIterE s (x :: xs) with u | ⟨t, l2⟩
        · rfl
        · have hp := insertIterE_progress s (x :: xs) t l2 hi (by simp)
          simp only [List.length_cons] at h1 h2 hp
          exact ih f2 t l2 (by omega) (by omega)

/-- The recursion that bulk `insert` satisfies: exactly the source shape
(return when the input is exhausted, otherwise run one outer-loop
iteration and recurse on the remaining input at flat_map.h:419). -/
theorem insertRangeE_eq (s : FM K V) (l : List (PElem K V)) :
    insertRangeE s l =
      match l with
      | [] => .ok s
      | x :: xs =>
        match insertIterE s (x :: xs) with
        | .error t => .error t
        | .ok (t, l2) => insertRangeE t l2 := by
  cases l with
  | nil => rfl
  | cons x xs =>
    show (match insertIterE s (x :: xs) with
      | Except.error t => (Except.error t : Except (FM K V) (FM K V))
      | Except.ok (t, l2) => insertRangeAux xs.length t l2) =
      (match insertIterE s (x :: xs) with
      | Except.error t => Except.error t
      | Except.ok (t, l2) => insertRangeE t l2)
    rcases hi : insertIterE s (x :: xs) with u | ⟨t, l2⟩
    · rfl
    · have hp := insertIterE_progress s (x :: xs) t l2 hi (by simp)
      simp only [List.length_cons] at hp
      exact insertRangeAux_fuel xs.length l2.length t l2 (by omega) (le_refl _)

/-- Buffer-level effect of a non-throwing `emplace(*it)` on one input
element: a good element is emplaced; a poison element that did not throw
left the buffer unchanged (its key was already present, so nothing was
constructed). -/
def stepE (d : List (K × V)) : PElem K V → List (K × V)
  | .good e => emplaceL d e
  | .pois _ => d

theorem stepE_sorted (d : List (K × V)) (x : PElem K V) (hd : SortedU d) :
    SortedU (stepE d x) := by
  cases x with
  | good e => exact emplaceL_sorted d e hd
  | pois k => exact hd

theorem foldl_stepE_sorted (l : List (PElem K V)) (d : List (K × V))
    (hd : SortedU d) : SortedU (l.foldl stepE d) := by
  induction l generalizing d with
  | nil => exact hd
  | cons x xs ih => exact ih (stepE d x) (stepE_sorted d x hd)

theorem foldl_stepE_map_good (l : List (K × V)) (d : List (K × V)) :
    (l.map PElem.good).foldl stepE d = l.foldl emplaceL d := by
  induction l generalizing d with
  | nil => rfl
  | cons x xs ih => exact ih (emplaceL d x)

theorem emplaceE_ok_data (s : FM K V) (x : PElem K V) (pb : ℕ × Bool) (t : FM K V)
    (h : emplaceE s x = .ok (pb, t)) : t.data = stepE s.data x := by
  cases x with
  | good e =>
    have h2 := Except.ok.inj h
    have h3 : (emplaceP s e).2 = t := by rw [h2]
    rw [← h3, emplaceP_data]
    rfl
  | pois k =>
    simp only [emplaceE] at h
    rcases hm : s.data[lbIdx s.data k]? with _ | e <;> rw [hm] at h <;> dsimp only at h
    · exact absurd h (by simp)
    · by_cases hk : k < e.1
      · rw [if_pos hk] at h
        exact absurd h (by simp)
      · rw [if_neg hk] at h
        have h2 := Except.ok.inj h
        have h3 : s = t := congrArg Prod.snd h2
        rw [← h3]
        rfl

theorem emplaceE_error (s : FM K V) (x : PElem K V) (t : FM K V)
    (h : emplaceE s x = .error t) : t = s ∧ ∃ k, x = .pois k := by
  cases x with
  | good e => exact absurd h (by simp [emplaceE])
  | pois k =>
    refine ⟨?_, k, rfl⟩
    simp only [emplaceE] at h
    rcases hm : s.data[lbIdx s.data k]? with _ | e <;> rw [hm] at h <;> dsimp only at h
    · exact (Except.error.inj h).symm
    · by_cases hk : k < e.1
      · rw [if_pos hk] at h
        exact (Except.error.inj h).symm
      · rw [if_neg hk] at h
        exact absurd h (by simp)

theorem fastPathE_decomp (s : FM K V) (l : List (PElem K V)) (s1 : FM K V)
    (l1 : List (PElem K V)) (h : fastPathE s l = .ok (s1, l1)) :
    ∃ p, l = p ++ l1 ∧ s1.data = p.foldl stepE s.data := by
  induction l generalizing s with
  | nil =>
    simp only [fastPathE, Except.ok.injEq, Prod.mk.injEq] at h
    exact ⟨[], by rw [← h.2]; rfl, by rw [← h.1]; rfl⟩

  | cons x xs ih =>
    unfold fastPathE at h
    by_cases hf : s.data.length = s.cap
    · rw [if_pos hf] at h
      rcases he : emplaceE s x with u | ⟨pb, u⟩ <;> rw [he] at h
      · exact absurd h (by simp)
      · rcases ih u h with ⟨p, hp1, hp2⟩
        refine ⟨x :: p, by rw [List.cons_append, ← hp1], ?_⟩
        rw [List.foldl_cons, ← emplaceE_ok_data s x pb u he]
        exact hp2
    · rw [if_neg hf] at h
      simp only [Except.ok.injEq, Prod.mk.injEq] at h
      exact ⟨[], by rw [← h.2]; rfl, by rw [← h.1]; rfl⟩

theorem fastPathE_error_decomp (s : FM K V) (l : List (PElem K V)) (t : FM K V)
    (h : fastPathE s l = .error t) :
    ∃ p k r, l = p ++ PElem.pois k :: r ∧ t.data = p.foldl stepE s.data := by
  induction l generalizing s with
  | nil => exact absurd h (by simp [fastPathE])
  | cons x xs ih =>
    unfold fastPathE at h
    by_cases hf : s.data.length = s.cap
    · rw [if_pos hf] at h
      rcases he : emplaceE s x with u | ⟨pb, u⟩ <;> rw [he] at h
      · have h2 := Except.error.inj h
        rcases emplaceE_error s x u he with ⟨hu, k, hk⟩
        refine ⟨[], k, xs, by rw [hk]; rfl, ?_⟩
        rw [← h2, hu]
        rfl
      · rcases ih u h with ⟨p, k, r, hp1, hp2⟩
        refine ⟨x :: p, k, r, by rw [List.cons_append, ← hp1], ?_⟩
        rw [List.foldl_cons, ← emplaceE_ok_data s x pb u he]
        exact hp2
    · rw [if_neg hf] at h
      exact absurd h (by simp)

omit [LinearOrder K] in
theorem appendTry_spec (d : List (K × V)) (i : ℕ) (l : List (PElem K V)) :
    ∃ g, (appendTry d i l).1 = d ++ g ∧
      l = g.map PElem.good ++ (appendTry d i l).2.1 ∧
      ((appendTry d i l).2.2 = true → ∃ k r, (appendTry d i l).2.1 = PElem.pois k :: r) := by
  induction l generalizing d i with
  | nil =>
    refine ⟨[], by simp [appendTry], by simp [appendTry], ?_⟩
    intro hth
    simp [appendTry] at hth
  | cons x xs ih =>
    rcases i with _ | i
    · refine ⟨[], by cases x <;> simp [appendTry], by cases x <;> simp [appendTry], ?_⟩
      intro hth
      cases x <;> simp [appendTry] at hth
    · cases x with
      | good e =>
        rcases ih (d ++ [e]) i with ⟨g, h1, h2, h3⟩
        refine ⟨e :: g, ?_, ?_, ?_⟩
        · show (appendTry (d ++ [e]) i xs).1 = _
          rw [h1, List.append_assoc]
          rfl
        · show PElem.good e :: xs =
            (e :: g).map PElem.good ++ (appendTry (d ++ [e]) i xs).2.1
          rw [List.map_cons, List.cons_append, ← h2]
        · exact h3
      | pois k =>
        refine ⟨[], by simp [appendTry], by simp [appendTry], ?_⟩
        intro hth
        exact ⟨k, xs, rfl⟩

theorem stuckLoopE_decomp (s : FM K V) (l : List (PElem K V)) (t : FM K V)
    (l2 : List (PElem K V)) (h : stuckLoopE s l = .ok (t, l2)) :
    ∃ p, l = p ++ l2 ∧ t.data = p.foldl stepE s.data := by
  induction l generalizing s with
  | nil =>
    simp only [stuckLoopE, Except.ok.injEq, Prod.mk.injEq] at h
    exact ⟨[], by rw [← h.2]; rfl, by rw [← h.1]; rfl⟩
  | cons x xs ih =>
    unfold stuckLoopE at h
    rcases he : emplaceE s x with u | ⟨⟨pi, pb⟩, u⟩ <;> rw [he] at h
    · exact absurd h (by simp)
    · cases pb
      · rcases ih u h with ⟨p, hp1, hp2⟩
        refine ⟨x :: p, by rw [List.cons_append, ← hp1], ?_⟩
        rw [List.foldl_cons, ← emplaceE_ok_data s x (pi, false) u he]
        exact hp2
      · simp only [Except.ok.injEq, Prod.mk.injEq] at h
        refine ⟨[x], by rw [← h.2]; rfl, ?_⟩
        rw [← h.1, List.foldl_cons, List.foldl_nil,
          ← emplaceE_ok_data s x (pi, true) u he]

theorem stuckLoopE_error_decomp (s : FM K V) (l : List (PElem K V)) (t : FM K V)
    (h : stuckLoopE s l = .error t) :
    ∃ p k r, l = p ++ PElem.pois k :: r ∧ t.data = p.foldl stepE s.data := by
  induction l generalizing s with
  | nil => exact absurd h (by simp [stuckLoopE])
  | cons x xs ih =>
    unfold stuckLoopE at h
    rcases he : emplaceE s x with u | ⟨⟨pi, pb⟩, u⟩ <;> rw [he] at h
    · have h2 := Except.error.inj h
      rcases emplaceE_error s x u he with ⟨hu, k, hk⟩
      refine ⟨[], k, xs, by rw [hk]; rfl, ?_⟩
      rw [← h2, hu]
      rfl
    · cases pb
      · rcases ih u h with ⟨p, k, r, hp1, hp2⟩
        refine ⟨x :: p, k, r, by rw [List.cons_append, ← hp1], ?_⟩
        rw [List.foldl_cons, ← emplaceE_ok_data s x (pi, false) u he]
        exact hp2
      · exact absurd h (by simp)

theorem mergedOf_foldl (s1 : FM K V) (g : List (K × V)) (hs1 : SortedU s1.data) :
    mergedOf s1 (s1.data ++ g) = (g.map PElem.good).foldl stepE s1.data := by
  unfold mergedOf
  rw [List.take_left, List.drop_left, foldl_stepE_map_good]
  exact batch_eq_foldl s1.data g hs1

/-- One outer-loop iteration, when it completes normally, consumes a
prefix of the input and leaves exactly the buffer obtained by emplacing
the consumed elements one at a time. -/
theorem insertIterE_ok_decomp (s : FM K V) (l : List (PElem K V)) (t : FM K V)
    (l2 : List (PElem K V)) (hs : SortedU s.data)
    (h : insertIterE s l = .ok (t, l2)) :
    ∃ p, l = p ++ l2 ∧ t.data = p.foldl stepE s.data := by
  unfold insertIterE at h
  rcases hf : fastPathE s l with u | ⟨s1, l1⟩ <;> rw [hf] at h
  · exact absurd h (by simp)
  · rcases fastPathE_decomp s l s1 l1 hf with ⟨pf, hpf1, hpf2⟩
    have hs1 : SortedU s1.data := by
      rw [hpf2]
      exact foldl_stepE_sorted pf s.data hs
    cases l1 with
    | nil =>
      simp only [Except.ok.injEq, Prod.mk.injEq] at h
      exact ⟨pf, by rw [hpf1, ← h.2], by rw [← h.1, hpf2]⟩
    | cons y ys =>
      simp only at h
      rcases appendTry_spec s1.data (s1.cap - s1.data.length) (y :: ys) with ⟨g, hg1, hg2, hg3⟩
      by_cases hth : (appendTry s1.data (s1.cap - s1.data.length) (y :: ys)).2.2
      · rw [if_pos hth] at h
        exact absurd h (by simp)
      · rw [if_neg hth] at h
        have hmerged : mergedOf s1 (appendTry s1.data (s1.cap - s1.data.length) (y :: ys)).1
            = (g.map PElem.good).foldl stepE s1.data := by
          rw [hg1]
          exact mergedOf_foldl s1 g hs1
        by_cases hstuck : (mergedOf s1
            (appendTry s1.data (s1.cap - s1.data.length) (y :: ys)).1).length =
            s1.data.length
        · rw [if_pos hstuck] at h
          rcases stuckLoopE_decomp _ _ _ _ h with ⟨p2, hp21, hp22⟩
          refine ⟨pf ++ (g.map PElem.good ++ p2), ?_, ?_⟩
          · rw [hpf1, hg2, hp21]
            simp [List.append_assoc]
          · rw [hp22]
            show List.foldl stepE (mergedOf s1
              (appendTry s1.data (s1.cap - s1.data.length) (y :: ys)).1) p2 = _
            rw [hmerged, List.foldl_append, List.foldl_append, ← hpf2]
        · rw [if_neg hstuck] at h
          simp only [Except.ok.injEq, Prod.mk.injEq] at h
          refine ⟨pf ++ g.map PElem.good, ?_, ?_⟩
          · rw [hpf1, hg2, ← h.2]
            simp [List.append_assoc]
          · rw [← h.1]
            show mergedOf s1 (appendTry s1.data (s1.cap - s1.data.length) (y :: ys)).1 = _
            rw [hmerged, List.foldl_append, ← hpf2]

/-- When an exception escapes one outer-loop iteration, the observed
buffer is the result of emplacing a consumed prefix of the input one
element at a time (in particular no partially appended batch is
visible), and the unconsumed remainder contains a poison element. -/
theorem insertIterE_error_decomp (s : FM K V) (l : List (PElem K V)) (t : FM K V)
    (hs : SortedU s.data) (h : insertIterE s l = .error t) :
    ∃ p r, l = p ++ r ∧ (∃ k, PElem.pois k ∈ r) ∧ t.data = p.foldl stepE s.data := by
  unfold insertIterE at h
  rcases hf : fastPathE s l with u | ⟨s1, l1⟩ <;> rw [hf] at h
  · have h2 := Except.error.inj h
    rcases fastPathE_error_decomp s l u hf with ⟨p, k, r, hp1, hp2⟩
    exact ⟨p, PElem.pois k :: r, hp1, ⟨k, List.mem_cons_self _ _⟩, by rw [← h2, hp2]⟩
  · rcases fastPathE_decomp s l s1 l1 hf with ⟨pf, hpf1, hpf2⟩
    have hs1 : SortedU s1.data := by
      rw [hpf2]
      exact foldl_stepE_sorted pf s.data hs
    cases l1 with
    | nil => exact absurd h (by simp)
    | cons y ys =>
      simp only at h
      rcases appendTry_spec s1.data (s1.cap - s1.data.length) (y :: ys) with ⟨g, hg1, hg2, hg3⟩
      by_cases hth : (appendTry s1.data (s1.cap - s1.data.length) (y :: ys)).2.2
      · rw [if_pos hth] at h
        have h2 := Except.error.inj h
        rcases hg3 hth with ⟨k, r2, hr2⟩
        refine ⟨pf, y :: ys, hpf1, ⟨k, ?_⟩, ?_⟩
        · rw [hg2, hr2]
          exact List.mem_append_right _ (List.mem_cons_self _ _)
        · rw [← h2]
          show ((appendTry s1.data (s1.cap - s1.data.length) (y :: ys)).1.take
            s1.data.length) = _
          rw [hg1, List.take_left, hpf2]
      · rw [if_neg hth] at h
        have hmerged : mergedOf s1 (appendTry s1.data (s1.cap - s1.data.length) (y :: ys)).1
            = (g.map PElem.good).foldl stepE s1.data := by
          rw [hg1]
          exact mergedOf_foldl s1 g hs1
        by_cases hstuck : (mergedOf s1
            (appendTry s1.data (s1.cap - s1.data.length) (y :: ys)).1).length =
            s1.data.length
        · rw [if_pos hstuck] at h
          rcases stuckLoopE_error_decomp _ _ _ h with ⟨p2, k, r2, hp21, hp22⟩
          refine ⟨pf ++ (g.map PElem.good ++ p2), PElem.pois k :: r2, ?_,
            ⟨k, List.mem_cons_self _ _⟩, ?_⟩
          · rw [hpf1, hg2, hp21]
            simp [List.append_assoc]
          · rw [hp22]
            show List.foldl stepE (mergedOf s1
              (appendTry s1.data (s1.cap - s1.data.length) (y :: ys)).1) p2 = _
            rw [hmerged, List.foldl_append, List.foldl_append, ← hpf2]
        · rw [if_neg hstuck] at h
          exact absurd h (by simp)

theorem insertRangeE_ok_aux (n : ℕ) (s : FM K V) (l : List (PElem K V))
    (hn : l.length ≤ n) (hs : SortedU s.data) (t : FM K V)
    (h : insertRangeE s l = .ok t) : t.data = l.foldl stepE s.data := by
  induction n generalizing s l with
  | zero =>
    have hl : l = [] := by
      cases l with
      | nil => rfl
      | cons x xs => simp at hn
    subst hl
    rw [insertRangeE_eq] at h
    dsimp only at h
    rw [← Except.ok.inj h]
    rfl
  | succ n ih =>
    cases l with
    | nil =>
      rw [insertRangeE_eq] at h
      dsimp only at h
      rw [← Except.ok.inj h]
      rfl
    | cons x xs =>
      rw [insertRangeE_eq] at h
      dsimp only at h
      rcases hi : insertIterE s (x :: xs) with u | ⟨t1, l2⟩ <;> rw [hi] at h
      · exact absurd h (by simp)
      · rcases insertIterE_ok_decomp s (x :: xs) t1 l2 hs hi with ⟨p, hp1, hp2⟩
        have hprog := insertIterE_progress s (x :: xs) t1 l2 hi (by simp)
        have ht1 : SortedU t1.data := by
          rw [hp2]
          exact foldl_stepE_sorted p s.data hs
        have h3 := ih t1 l2 (by
          simp only [List.length_cons] at hn hprog
          omega) ht1 h
        rw [h3, hp1, List.foldl_append, ← hp2]

theorem insertRangeE_error_aux (n : ℕ) (s : FM K V) (l : List (PElem K V))
    (hn : l.length ≤ n) (hs : SortedU s.data) (t : FM K V)
    (h : insertRangeE s l = .error t) :
    ∃ p r, l = p ++ r ∧ (∃ k, PElem.pois k ∈ r) ∧ t.data = p.foldl stepE s.data := by
  induction n generalizing s l with
  | zero =>
    have hl : l = [] := by
      cases l with
      | nil => rfl
      | cons x xs => simp at hn
    subst hl
    rw [insertRangeE_eq] at h
    exact absurd h (by simp)
  | succ n ih =>
    cases l with
    | nil =>
      rw [insertRangeE_eq] at h
      exact absurd h (by simp)
    | cons x xs =>
      rw [insertRangeE_eq] at h
      dsimp only at h
      rcases hi : insertIterE s (x :: xs) with u | ⟨t1, l2⟩ <;> rw [hi] at h
      · have h2 := Except.error.inj h
        rcases insertIterE_error_decomp s (x :: xs) u hs hi with ⟨p, r, hp1, hp2, hp3⟩
        exact ⟨p, r, hp1, hp2, by rw [← h2, hp3]⟩
      · rcases insertIterE_ok_decomp s (x :: xs) t1 l2 hs hi with ⟨p, hp1, hp2⟩
        have hprog := insertIterE_progress s (x :: xs) t1 l2 hi (by simp)
        have ht1 : SortedU t1.data := by
          rw [hp2]
          exact foldl_stepE_sorted p s.data hs
        rcases ih t1 l2 (by
          simp only [List.length_cons] at hn hprog
          omega) ht1 h with ⟨p2, r, hq1, hq2, hq3⟩
        refine ⟨p ++ p2, r, ?_, hq2, ?_⟩
        · rw [hp1, hq1, List.append_assoc]
        · rw [hq3, List.foldl_append, ← hp2]

/-- Bulk insert, on normal completion, computes exactly the fold of
single-element emplace steps over the whole input. -/
theorem insertRangeE_ok_data (s : FM K V) (l : List (PElem K V)) (t : FM K V)
    (hs : SortedU s.data) (h : insertRangeE s l = .ok t) :
    t.data = l.foldl stepE s.data :=
  insertRangeE_ok_aux l.length s l (le_refl _) hs t h

/-- When an exception escapes bulk insert, the observed buffer is the fold
of single-element emplace steps over a consumed prefix of the input, and
the unconsumed remainder contains a poison element. -/
theorem insertRangeE_error_data (s : FM K V) (l : List (PElem K V)) (t : FM K V)
    (hs : SortedU s.data) (h : insertRangeE s l = .error t) :
    ∃ p r, l = p ++ r ∧ (∃ k, PElem.pois k ∈ r) ∧ t.data = p.foldl stepE s.data :=
  insertRangeE_error_aux l.length s l (le_refl _) hs t h

/-- The container state observed after bulk insert, whether it returned
normally or an exception escaped. -/
def resFM : Except (FM K V) (FM K V) → FM K V
  | .ok t => t
  | .error t => t

theorem insertRangeE_res_sorted (s : FM K V) (l : List (PElem K V))
    (hs : SortedU s.data) : SortedU (resFM (insertRangeE s l)).data := by
  rcases h : insertRangeE s l with t | t
  · rcases insertRangeE_error_data s l t hs h with ⟨p, r, _, _, hp3⟩
    show SortedU t.data
    rw [hp3]
    exact foldl_stepE_sorted p s.data hs
  · show SortedU t.data
    rw [insertRangeE_ok_data s l t hs h]
    exact foldl_stepE_sorted l s.data hs

/-- `operator[]` (flat_map.h:269-277): locate `lower_bound(key)`; if that
position is `end()` or the key there is strictly greater, emplace
`(key, mapped_type())` there and return its value; otherwise return the
stored value.  `mapped_type()` is the default value. -/
def subscript [Inhabited V] (s : FM K V) (k : K) : V × FM K V :=
  match s.data[lbIdx s.data k]? with
  | none => ((default : V), insAt s (lbIdx s.data k) (k, default))
  | some e =>
    if k < e.1 then ((default : V), insAt s (lbIdx s.data k) (k, default))
    else (e.2, s)

theorem subscript_state [Inhabited V] (s : FM K V) (k : K) :
    (subscript s k).2 = (emplaceP s (k, (default : V))).2 := by
  unfold subscript emplaceP
  rcases hm : s.data[lbIdx s.data k]? with _ | e
  · simp [hm]
  · by_cases hk : k < e.1 <;> simp [hm, hk]

/-- `binary_find` (flat_map.h:824-832): `lower_bound`, then `end` (here
`none`) when the position is `end` or the searched value still precedes
the element found; otherwise the element found. -/
def binary_find (d : List (K × V)) (k : K) : Option (K × V) :=
  match d[lbIdx d k]? with
  | none => none
  | some e => if k < e.1 then none else some e

/-- `at` (flat_map.h:302-309): `binary_find`, then
`detail::throw_out_of_range` (modelled by `Except.error ()`) when the
result is `end()`, else a reference to the value.  The method never
touches `m_data`, so it is a pure function of the container. -/
def atFM (s : FM K V) (k : K) : Except Unit V :=
  match binary_find s.data k with
  | none => .error ()
  | some e => .ok e.2

theorem binary_find_cons (a : K × V) (as : List (K × V)) (k : K) :
    binary_find (a :: as) k =
      if a.1 < k then binary_find as k
      else if k < a.1 then none else some a := by
  by_cases h : a.1 < k
  · simp only [if_pos h]
    unfold binary_find
    rw [show lbIdx (a :: as) k = lbIdx as k + 1 from by simp [lbIdx, h]]
    rcases hm : as[lbIdx as k]? with _ | e
    · simp [hm]
    · by_cases hx : k < e.1 <;> simp [hm, hx]
  · simp only [if_neg h]
    unfold binary_find
    rw [show lbIdx (a :: as) k = 0 from by simp [lbIdx, h]]
    by_cases hx : k < a.1 <;> simp [hx]

/-- On a sorted buffer, `binary_find` returns exactly the entry holding
the searched key. -/
theorem binary_find_spec (d : List (K × V)) (k : K) (hd : SortedU d) :
    (binary_find d k = none ↔ ∀ e ∈ d, e.1 ≠ k) ∧
      (∀ e ∈ d, e.1 = k → binary_find d k = some e) := by
  induction d with
  | nil => simp [binary_find]
  | cons a as ih =>
    rw [sortedU_cons] at hd
    rw [binary_find_cons]
    rcases lt_trichotomy a.1 k with h1 | h1 | h1
    · rw [if_pos h1]
      constructor
      · rw [(ih hd.2).1]
        constructor
        · intro hall e he
          rcases List.mem_cons.1 he with h2 | h2
          · rw [h2]; exact ne_of_lt h1
          · exact hall e h2
        · intro hall e he
          exact hall e (List.mem_cons_of_mem a he)
      · intro e he hek
        rcases List.mem_cons.1 he with h2 | h2
        · rw [h2] at hek; exact absurd hek (ne_of_lt h1)
        · exact (ih hd.2).2 e h2 hek
    · rw [if_neg (by rw [h1]; exact lt_irrefl k), if_neg (by rw [h1]; exact lt_irrefl k)]
      constructor
      · constructor
        · intro hc; exact absurd hc (by simp)
        · intro hall
          exact absurd h1 (hall a (List.mem_cons_self a as))
      · intro e he hek
        rcases List.mem_cons.1 he with h2 | h2
        · rw [h2]
        · exact absurd (hek ▸ hd.1 e h2 : a.1 < e.1) (by rw [hek, ← h1]; exact lt_irrefl _)
    · rw [if_neg (not_lt.2 (le_of_lt h1)), if_pos h1]
      constructor
      · refine iff_of_true rfl ?_
        intro e he
        rcases List.mem_cons.1 he with h2 | h2
        · rw [h2]; exact ne_of_gt h1
        · exact ne_of_gt (lt_trans h1 (hd.1 e h2))
      · intro e he hek
        rcases List.mem_cons.1 he with h2 | h2
        · rw [h2] at hek; rw [hek] at h1; exact absurd h1 (lt_irrefl k)
        · have := hd.1 e h2
          rw [hek] at this
          exact absurd (lt_trans h1 this) (lt_irrefl k)

/-- `emplace` called as `.first` (the iterator component), used by the
`emplace_hint` fallback (flat_map.h:553, 558). -/
def emplaceFirst (s : FM K V) (x : K × V) : ℕ × FM K V :=
  ((emplaceP s x).1.1, (emplaceP s x).2)

/-- The front branch of `emplace_hint` (flat_map.h:548-553): the hint is
`cend()` or the candidate precedes the entry at the hint; insert at the
hint when the hint is `cbegin()` or the entry just before it precedes
the candidate, otherwise fall back to `emplace`. -/
def emplaceHintFront (s : FM K V) (hint : ℕ) (x : K × V) : ℕ × FM K V :=
  if hint = 0 then (hint, insAt s hint x)
  else
    match s.data[hint - 1]? with
    | some p => if p.1 < x.1 then (hint, insAt s hint x) else emplaceFirst s x
    | none => (hint, insAt s hint x)

/-- `emplace_hint` (flat_map.h:544-559), with positions as indices:
`cbegin()` is 0 and `cend()` is `size()`, so for a valid hint
(`hint ≤ size()`) the `none` arm of the match is exactly the
`hint == cend()` case. -/
def emplaceHint (s : FM K V) (hint : ℕ) (x : K × V) : ℕ × FM K V :=
  match s.data[hint]? with
  | none => emplaceHintFront s hint x
  | some e =>
    if x.1 < e.1 then emplaceHintFront s hint x
    else if ¬ e.1 < x.1 then (hint, s)
    else emplaceFirst s x

/-- `erase(iterator)` (flat_map.h:438-441): `m_data.erase(it)`; the
capacity of a vector is unchanged by `erase`. -/
def eraseIt (s : FM K V) (i : ℕ) : FM K V :=
  ⟨s.data.eraseIdx i, s.cap,
   le_trans (List.Sublist.length_le (List.eraseIdx_sublist s.data i)) s.hle⟩

/-- The index returned by `find` (flat_map.h:592-596): the `lower_bound`
position when the entry there has the searched key, else `none`
(standing for `end()`). -/
def findIdxFM (d : List (K × V)) (k : K) : Option ℕ :=
  match d[lbIdx d k]? with
  | none => none
  | some e => if k < e.1 then none else some (lbIdx d k)

/-- `erase(key)` (flat_map.h:460-468): locate via `find`; when absent
return count 0 and leave the container unchanged, else erase the found
position and return count 1. -/
def eraseKey (s : FM K V) (k : K) : ℕ × FM K V :=
  match findIdxFM s.data k with
  | none => (0, s)
  | some i => (1, eraseIt s i)

/-- `erase(first, last)` (flat_map.h:477-480) for a valid iterator range
`first ≤ last`: `m_data.erase(first, last)` removes the sub-range and
keeps the capacity. -/
def eraseRange (s : FM K V) (i j : ℕ) (hij : i ≤ j) : FM K V :=
  ⟨s.data.take i ++ s.data.drop j, s.cap, by
    have h1 := List.length_take i s.data
    have h2 := List.length_drop j s.data
    have h3 := s.hle
    rw [List.length_append]
    omega⟩

/-- `clear()` (flat_map.h:496-499): `m_data.clear()`, which empties the
buffer and keeps the capacity. -/
def clearFM (s : FM K V) : FM K V := ⟨[], s.cap, Nat.zero_le _⟩

/-- `emplace()` with no arguments (flat_map.h:530-533): emplaces a
value-initialized `value_type()`, the pair of a default-constructed key
and a default-constructed value. -/
def emplaceNoArgs [Inhabited K] [Inhabited V] (s : FM K V) : (ℕ × Bool) × FM K V :=
  emplaceP s ((default : K), (default : V))

theorem sortedU_takeDrop (d : List (K × V)) (i j : ℕ) (hij : i ≤ j)
    (hd : SortedU d) : SortedU (d.take i ++ d.drop j) := by
  have h1 : d.drop j = (d.drop i).drop (j - i) := by
    rw [List.drop_drop]
    congr 1
    omega
  rw [h1]
  have h2 := List.Sublist.append_left (List.drop_sublist (j - i) (d.drop i)) (d.take i)
  rw [List.take_append_drop i d] at h2
  exact List.Pairwise.sublist h2 hd

/-- The sequence of entries visited iterating from position `b` up to
position `e` of a buffer. -/
def iterSeq (seq : List (K × V)) (b e : ℕ) : List (K × V) :=
  (seq.drop b).take (e - b)

/-- Forward iteration, `begin()` to `end()` (flat_map.h:87-100): index 0
to index `size()` of the buffer; the const and non-const overloads and
`cbegin()`/`cend()` (flat_map.h:107-140) return the same positions. -/
def fwdTraversal (s : FM K V) : List (K × V) :=
  iterSeq s.data 0 s.data.length

/-- Reverse iteration through the non-const interface, `rbegin()` to
`rend()` (flat_map.h:147-160): index 0 to index `size()` of the reversed
buffer. -/
def revTraversal (s : FM K V) : List (K × V) :=
  iterSeq s.data.reverse 0 s.data.length

/-- The position of `rbegin() const` (flat_map.h:167-170),
`std::rbegin(m_data)`: index 0 of the reversed buffer. -/
def crbeginPos (_s : FM K V) : ℕ := 0

/-- The position that `rend() const` (flat_map.h:177-180) actually
returns: the source body is `return std::rbegin(m_data);`, index 0 of
the reversed buffer — not `std::rend`. -/
def crendPos (_s : FM K V) : ℕ := 0

/-- Reverse iteration through the const interface, from `rbegin() const`
to `rend() const` exactly as the source defines those positions. -/
def crevTraversal (s : FM K V) : List (K × V) :=
  iterSeq s.data.reverse (crbeginPos s) (crendPos s)

theorem foldl_emplaceP_data (s : FM K V) (l : List (K × V)) :
    (l.foldl (fun u x => (emplaceP u x).2) s).data = l.foldl emplaceL s.data := by
  induction l generalizing s with
  | nil => rfl
  | cons x xs ih =>
    rw [List.foldl_cons, List.foldl_cons, ih, emplaceP_data]

theorem stuckLoopE_cons_length (s : FM K V) (x : PElem K V)
    (xs : List (PElem K V)) (t : FM K V) (l2 : List (PElem K V))
    (h : stuckLoopE s (x :: xs) = .ok (t, l2)) : l2.length ≤ xs.length := by
  unfold stuckLoopE at h
  rcases he : emplaceE s x with u | ⟨⟨pi, pb⟩, u⟩ <;> rw [he] at h
  · exact absurd h (by simp)
  · cases pb
    · exact stuckLoopE_ok u xs t l2 h
    · simp only [Except.ok.injEq, Prod.mk.injEq] at h
      rw [← h.2]

theorem lbIdx_eq_of (d : List (K × V)) (k : K) (i : ℕ) (hi : i ≤ d.length)
    (hbefore : ∀ j (hjl : j < d.length), j < i → (d.get ⟨j, hjl⟩).1 < k)
    (hat : ∀ e, d[i]? = some e → ¬ e.1 < k) : lbIdx d k = i := by
  induction d generalizing i with
  | nil =>
    simp only [List.length_nil, Nat.le_zero] at hi
    rw [hi]
    rfl
  | cons a as ih =>
    rcases i with _ | i
    · have ha := hat a (by simp)
      rw [show lbIdx (a :: as) k = 0 from by simp [lbIdx, ha]]
    · have ha : a.1 < k := hbefore 0 (by simp) (Nat.succ_pos i)
      rw [show lbIdx (a :: as) k = lbIdx as k + 1 from by simp [lbIdx, ha]]
      congr 1
      apply ih i (by simp only [List.length_cons] at hi; omega)
      · intro j hjl hji
        have h2 := hbefore (j + 1) (by simp only [List.length_cons]; omega) (by omega)
        simpa using h2
      · intro e hee
        exact hat e (by simpa using hee)

theorem sorted_prefix_lt (d : List (K × V)) (hd : SortedU d) (hint : ℕ)
    (p : K × V) (hp : d[hint - 1]? = some p) (kk : K) (hpk : p.1 < kk) :
    ∀ j (hjl : j < d.length), j < hint → (d.get ⟨j, hjl⟩).1 < kk := by
  intro j hjl hji
  rcases (getElem?_some_iff _ _ _).1 hp with ⟨hp1, hp2⟩
  rcases Nat.lt_or_ge j (hint - 1) with h1 | h1
  · have h2 := sortedU_getElem d hd j (hint - 1) hjl hp1 h1
    rw [hp2] at h2
    exact lt_trans h2 hpk
  · have h3 : d.get ⟨j, hjl⟩ = d.get ⟨hint - 1, hp1⟩ := by
      congr 1
      exact Fin.mk_eq_mk.2 (by omega)
    rw [h3, hp2]
    exact hpk

theorem emplaceP_inserted_data (s : FM K V) (x : K × V)
    (h : (emplaceP s x).1.2 = true) :
    ((emplaceP s x).2).data = s.data.insertIdx (lbIdx s.data x.1) x := by
  unfold emplaceP at *
  rcases hm : s.data[lbIdx s.data x.1]? with _ | e <;> rw [hm] at h <;> dsimp only at h ⊢
  · rfl
  · by_cases hx : x.1 < e.1
    · rw [if_pos hx]
      rfl
    · rw [if_neg hx] at h
      exact absurd h (by simp)

theorem emplaceP_length_iff (s : FM K V) (x : K × V) (hs : SortedU s.data) :
    ((emplaceP s x).2).data.length = s.data.length + 1 ↔
      ∀ e ∈ s.data, e.1 ≠ x.1 := by
  rw [← emplaceP_inserted_iff s x hs]
  have hlb := lbIdx_le_length s.data x.1
  unfold emplaceP
  rcases hm : s.data[lbIdx s.data x.1]? with _ | e <;> dsimp only
  · constructor
    · intro _
      trivial
    · intro _
      show (s.data.insertIdx (lbIdx s.data x.1) x).length = s.data.length + 1
      rw [@List.length_insertIdx _ x _ _ hlb]
  · by_cases hx : x.1 < e.1
    · rw [if_pos hx]
      constructor
      · intro _
        trivial
      · intro _
        show (s.data.insertIdx (lbIdx s.data x.1) x).length = s.data.length + 1
        rw [@List.length_insertIdx _ x _ _ hlb]
    · rw [if_neg hx]
      constructor
      · intro hc
        have h2 : s.data.length = s.data.length + 1 := hc
        omega
      · intro hflag
        exact absurd hflag (by simp)

theorem emplaceHintFront_state (s : FM K V) (hint : ℕ) (x : K × V)
    (hs : SortedU s.data) (hh : hint ≤ s.data.length)
    (hat : ∀ e, s.data[hint]? = some e → x.1 < e.1) :
    emplaceHintFront s hint x = ((emplaceP s x).1.1, (emplaceP s x).2) := by
  unfold emplaceHintFront
  by_cases h0 : hint = 0
  · rw [if_pos h0]
    subst h0
    have hlb : lbIdx s.data x.1 = 0 :=
      lbIdx_eq_of s.data x.1 0 (Nat.zero_le _)
        (fun j hjl hj0 => absurd hj0 (Nat.not_lt_zero j))
        (fun e he => not_lt.2 (le_of_lt (hat e he)))
    unfold emplaceP
    rcases hm2 : s.data[lbIdx s.data x.1]? with _ | e2 <;> dsimp only
    · rw [hlb]
    · have hx2 : x.1 < e2.1 := hat e2 (by rw [← hlb]; exact hm2)
      rw [if_pos hx2]
      dsimp only
      rw [hlb]
  · rw [if_neg h0]
    rcases hp : s.data[hint - 1]? with _ | p <;> dsimp only
    · exfalso
      have h2 := List.getElem?_eq_none_iff.1 hp
      omega
    · by_cases hpx : p.1 < x.1
      · rw [if_pos hpx]
        have hlb : lbIdx s.data x.1 = hint :=
          lbIdx_eq_of s.data x.1 hint hh
            (sorted_prefix_lt s.data hs hint p hp x.1 hpx)
            (fun e he => not_lt.2 (le_of_lt (hat e he)))
        unfold emplaceP
        rcases hm2 : s.data[lbIdx s.data x.1]? with _ | e2 <;> dsimp only
        · rw [hlb]
        · have hx2 : x.1 < e2.1 := hat e2 (by rw [← hlb]; exact hm2)
          rw [if_pos hx2]
          dsimp only
          rw [hlb]
      · rw [if_neg hpx]
        rfl

/-- `emplace_hint` with a valid hint on a sorted buffer returns exactly
the position and the container that plain `emplace` returns. -/
theorem emplaceHint_state (s : FM K V) (hint : ℕ) (x : K × V)
    (hs : SortedU s.data) (hh : hint ≤ s.data.length) :
    emplaceHint s hint x = ((emplaceP s x).1.1, (emplaceP s x).2) := by
  unfold emplaceHint
  rcases hm : s.data[hint]? with _ | e <;> dsimp only
  · exact emplaceHintFront_state s hint x hs hh
      (fun e2 he2 => Option.noConfusion (hm.symm.trans he2))
  · by_cases hxe : x.1 < e.1
    · rw [if_pos hxe]
      refine emplaceHintFront_state s hint x hs hh (fun e2 he2 => ?_)
      rw [← Option.some.inj (hm.symm.trans he2)]
      exact hxe
    · rw [if_neg hxe]
      by_cases hex : e.1 < x.1
      · rw [if_neg (not_not_intro hex)]
        rfl
      · rw [if_pos hex]
        have hex2 : e.1 = x.1 := le_antisymm (not_lt.1 hxe) (not_lt.1 hex)
        rcases (getElem?_some_iff _ _ _).1 hm with ⟨hhl, hhe⟩
        have hlb : lbIdx s.data x.1 = hint := by
          apply lbIdx_eq_of s.data x.1 hint hh
          · intro j hjl hji
            have h2 := sortedU_getElem s.data hs j hint hjl hhl hji
            rw [hhe, hex2] at h2
            exact h2
          · intro e2 he2
            rw [← Option.some.inj (hm.symm.trans he2), hex2]
            exact lt_irrefl x.1
        unfold emplaceP
        rcases hm2 : s.data[lbIdx s.data x.1]? with _ | e2 <;> dsimp only
        · rw [hlb, hm] at hm2
          exact Option.noConfusion hm2
        · have he2e : e2 = e := by
            rw [hlb, hm] at hm2
            exact (Option.some.inj hm2).symm
          rw [if_neg (by rw [he2e, hex2]; exact lt_irrefl x.1)]
          dsimp only
          rw [hlb]

/-- A concrete sorted two-entry container used by the witnesses. -/
def wmap : FM ℕ ℕ := ⟨[(1, 10), (3, 30)], 2, by decide⟩

/-- C1: Invariant I1 — the entry sequence is strictly ascending by key
under the comparator, so no two entries have equivalent keys — holds
after every public mutation applied to a state satisfying it:
`operator[]` (subscript), single-element `insert`/`emplace`
(flat_map.h:334-349 delegate to `emplace`), `emplace_hint` with any
valid hint, bulk `insert` over any input range (including the state an
escaping exception leaves behind), `erase` by iterator, by key, and by
range, and `clear`. -/
theorem c1_invariant_preserved [Inhabited V] (s : FM K V) (hs : SortedU s.data) :
    (∀ k : K, SortedU ((subscript s k).2).data) ∧
    (∀ x : K × V, SortedU ((emplaceP s x).2).data) ∧
    (∀ (hint : ℕ) (x : K × V), hint ≤ s.data.length →
      SortedU ((emplaceHint s hint x).2).data) ∧
    (∀ l : List (PElem K V), SortedU (resFM (insertRangeE s l)).data) ∧
    (∀ i : ℕ, SortedU (eraseIt s i).data) ∧
    (∀ k : K, SortedU ((eraseKey s k).2).data) ∧
    (∀ (i j : ℕ) (hij : i ≤ j), SortedU (eraseRange s i j hij).data) ∧
    SortedU (clearFM s).data := by
  refine ⟨?_, ?_, ?_, ?_, ?_, ?_, ?_, ?_⟩
  · intro k
    rw [subscript_state, emplaceP_data]
    exact emplaceL_sorted _ _ hs
  · intro x
    rw [emplaceP_data]
    exact emplaceL_sorted _ _ hs
  · intro hint x hh
    rw [emplaceHint_state s hint x hs hh]
    show SortedU ((emplaceP s x).2).data
    rw [emplaceP_data]
    exact emplaceL_sorted _ _ hs
  · intro l
    exact insertRangeE_res_sorted s l hs
  · intro i
    show SortedU (s.data.eraseIdx i)
    exact List.Pairwise.sublist (List.eraseIdx_sublist s.data i) hs
  · intro k
    unfold eraseKey
    rcases hm : findIdxFM s.data k with _ | i
    · exact hs
    · show SortedU (s.data.eraseIdx i)
      exact List.Pairwise.sublist (List.eraseIdx_sublist s.data i) hs
  · intro i j hij
    exact sortedU_takeDrop s.data i j hij hs
  · exact sortedU_nil

/-- Witness for C1: the invariant statement instantiated at a concrete
sorted container. -/
theorem c1_witness :
    SortedU ((emplaceP wmap (2, 20)).2).data ∧
    SortedU ((eraseKey wmap 1).2).data ∧
    SortedU (resFM (insertRangeE wmap [PElem.good (2, 20), PElem.pois 1])).data :=
  ⟨(c1_invariant_preserved wmap (by decide)).2.1 (2, 20),
   (c1_invariant_preserved wmap (by decide)).2.2.2.2.2.1 1,
   (c1_invariant_preserved wmap (by decide)).2.2.2.1 [PElem.good (2, 20), PElem.pois 1]⟩

/-- C2: for every starting container satisfying the invariant and every
finite input sequence of entries, bulk `insert` completes normally and
produces exactly the entry sequence — same keys, same values, in the
same order — obtained by emplacing each input element one at a time in
input order. -/
theorem c2_bulk_eq_fold (s : FM K V) (l : List (K × V)) (hs : SortedU s.data) :
    ∃ t, insertRangeE s (l.map PElem.good) = .ok t ∧
      t.data = (l.foldl (fun u x => (emplaceP u x).2) s).data := by
  rcases h : insertRangeE s (l.map PElem.good) with u | t
  · exfalso
    rcases insertRangeE_error_data s _ u hs h with ⟨p, r, hp1, ⟨k, hk⟩, _⟩
    have hmem : PElem.pois k ∈ l.map PElem.good := by
      rw [hp1]
      exact List.mem_append_right p hk
    rcases List.mem_map.1 hmem with ⟨a, _, ha⟩
    exact PElem.noConfusion ha
  · refine ⟨t, rfl, ?_⟩
    rw [insertRangeE_ok_data s _ t hs h, foldl_stepE_map_good, foldl_emplaceP_data]

/-- Witness for C2: a bulk insert with a duplicate key inside the input
and a key already present in the container. -/
theorem c2_witness :
    ∃ t, insertRangeE (⟨[(2, 20)], 1, by decide⟩ : FM ℕ ℕ)
        ([(1, 10), (1, 11), (2, 22)].map PElem.good) = .ok t ∧
      t.data = ([(1, 10), (1, 11), (2, 22)].foldl
        (fun u x => (emplaceP u x).2) (⟨[(2, 20)], 1, by decide⟩ : FM ℕ ℕ)).data :=
  c2_bulk_eq_fold _ _ (by decide)

/-- C3 counterexample: bulk-inserting `[(1,10), poison-with-key-2]` into
an empty container with no spare capacity inserts `(1,10)` through the
fast path (the container is full, so elements go one at a time through
`emplace`), then the poison throws while being inserted; the escaping
container holds `(1,10)` — not the entry sequence held before the call
began, which was empty. -/
theorem c3_counterexample :
    insertRangeE (⟨[], 0, by decide⟩ : FM ℕ ℕ)
        [PElem.good (1, 10), PElem.pois 2] =
      .error ⟨[(1, 10)], 1, by decide⟩ ∧
    ([(1, 10)] : List (ℕ × ℕ)) ≠ (⟨[], 0, by decide⟩ : FM ℕ ℕ).data :=
  ⟨rfl, by decide⟩

/-- C3 (amended): when a construction failure escapes bulk `insert`, the
container the caller observes is exactly the result of emplacing, one
element at a time, a prefix of the input that had been fully processed —
no partially appended batch is visible, because the failing batch is
popped back before the exception propagates — and a poison element lies
in the unprocessed remainder.  Entries inserted by earlier outer-loop
iterations remain: the rollback is per append batch, not for the whole
call. -/
theorem c3_amended_rollback (s : FM K V) (l : List (PElem K V)) (t : FM K V)
    (hs : SortedU s.data) (h : insertRangeE s l = .error t) :
    ∃ p r, l = p ++ r ∧ (∃ k, PElem.pois k ∈ r) ∧
      t.data = p.foldl stepE s.data :=
  insertRangeE_error_data s l t hs h

/-- Witness for the amended C3 at the concrete failing run. -/
theorem c3_amended_witness :
    ∃ p r, [PElem.good ((1 : ℕ), (10 : ℕ)), PElem.pois 2] = p ++ r ∧
      (∃ k, PElem.pois k ∈ r) ∧
      (⟨[(1, 10)], 1, by decide⟩ : FM ℕ ℕ).data =
        p.foldl stepE (⟨[], 0, by decide⟩ : FM ℕ ℕ).data :=
  c3_amended_rollback (⟨[], 0, by decide⟩ : FM ℕ ℕ)
    [PElem.good (1, 10), PElem.pois 2]
    (⟨[(1, 10)], 1, by decide⟩ : FM ℕ ℕ) (by decide) rfl

/-- C4: the const-interface reverse traversal visits no entries at all,
because `rend() const` (flat_map.h:177-180) returns
`std::rbegin(m_data)` instead of `std::rend(m_data)` — contradicting its
own documentation comment.  On a one-entry container the const reverse
range `rbegin()..rend()` is empty, while forward traversal and the
non-const reverse traversal visit the single entry exactly once. -/
theorem c4_const_rend_bug :
    crevTraversal (⟨[(1, 10)], 1, by decide⟩ : FM ℕ ℕ) = [] ∧
    fwdTraversal (⟨[(1, 10)], 1, by decide⟩ : FM ℕ ℕ) = [(1, 10)] ∧
    revTraversal (⟨[(1, 10)], 1, by decide⟩ : FM ℕ ℕ) = [(1, 10)] :=
  ⟨rfl, rfl, rfl⟩

omit [LinearOrder K] in
/-- C5: when a construction fails during the chunked-append loop of one
bulk-insert batch, the buffer at that moment is the pre-append buffer
followed by the batch elements appended so far (the failing
`emplace_back` itself appends nothing), the remaining input begins with
the throwing poison element, and popping the buffer back to
`size_before` — the catch block of flat_map.h:398-404 — removes exactly
the appended elements: every entry present before the append step is
unchanged and nothing of the batch survives. -/
theorem c5_batch_rollback (d : List (K × V)) (i : ℕ) (l : List (PElem K V))
    (h : (appendTry d i l).2.2 = true) :
    (∃ g, (appendTry d i l).1 = d ++ g) ∧
      (appendTry d i l).1.take d.length = d ∧
      (∃ k r2, (appendTry d i l).2.1 = PElem.pois k :: r2) := by
  rcases appendTry_spec d i l with ⟨g, h1, h2, h3⟩
  exact ⟨⟨g, h1⟩, by rw [h1, List.take_left], h3 h⟩

/-- Witness for C5: one good element is appended, then the poison
throws; the rollback restores the one-entry prefix. -/
theorem c5_witness :
    (∃ g, (appendTry [((1 : ℕ), (10 : ℕ))] 2
        [PElem.good (2, 20), PElem.pois 3]).1 = [(1, 10)] ++ g) ∧
      (appendTry [((1 : ℕ), (10 : ℕ))] 2
        [PElem.good (2, 20), PElem.pois 3]).1.take 1 = [(1, 10)] ∧
      (∃ k r2, (appendTry [((1 : ℕ), (10 : ℕ))] 2
        [PElem.good (2, 20), PElem.pois 3]).2.1 = PElem.pois k :: r2) :=
  c5_batch_rollback [(1, 10)] 2 [PElem.good (2, 20), PElem.pois 3] (by decide)

/-- C6 counterexample: container `[(1,10)]` with capacity 2 and bulk
input `[(1,11), (1,12), (2,13)]`.  The appended batch `[(1,11)]`
consists entirely of already-present keys, so the stuck-batch fallback
runs with remaining input `[(1,12), (2,13)]`.  Had it processed exactly
one element, the outer loop would continue with `[(2,13)]`; the code
instead emplaces elements until one insertion succeeds
(flat_map.h:411-418), consuming both, and the iteration hands the outer
loop an empty remainder. -/
theorem c6_counterexample :
    insertIterE (⟨[(1, 10)], 2, by decide⟩ : FM ℕ ℕ)
        [PElem.good (1, 11), PElem.good (1, 12), PElem.good (2, 13)] =
      .ok (⟨[(1, 10), (2, 13)], 2, by decide⟩, []) ∧
    ([] : List (PElem ℕ ℕ)) ≠ [PElem.good (2, 13)] :=
  ⟨rfl, by decide⟩

/-- C6 (amended): the stuck-batch fallback processes one or more
elements of the remaining input via single-element `emplace`: it
consumes a non-empty prefix — each element skipped on the way leaves the
container unchanged because its key is already present, and the first
successfully inserted element is consumed as well — and the outer loop
continues with the rest of the input. -/
theorem c6_amended_fallback (s : FM K V) (l : List (PElem K V)) (t : FM K V)
    (l2 : List (PElem K V)) (hne : l ≠ []) (h : stuckLoopE s l = .ok (t, l2)) :
    ∃ p, p ≠ [] ∧ l = p ++ l2 ∧ t.data = p.foldl stepE s.data := by
  rcases stuckLoopE_decomp s l t l2 h with ⟨p, hp1, hp2⟩
  refine ⟨p, ?_, hp1, hp2⟩
  intro hc
  subst hc
  rw [List.nil_append] at hp1
  cases l with
  | nil => exact hne rfl
  | cons x xs =>
    have h2 := stuckLoopE_cons_length s x xs t l2 h
    rw [← hp1] at h2
    simp at h2

/-- Witness for the amended C6 at a concrete fallback run. -/
theorem c6_amended_witness :
    ∃ p, p ≠ [] ∧
      [PElem.good ((4 : ℕ), (40 : ℕ)), PElem.good (5, 50)] =
        p ++ [PElem.good (5, 50)] ∧
      (⟨[(4, 40)], 1, by decide⟩ : FM ℕ ℕ).data =
        p.foldl stepE (⟨[], 0, by decide⟩ : FM ℕ ℕ).data :=
  c6_amended_fallback (⟨[], 0, by decide⟩ : FM ℕ ℕ)
    [PElem.good (4, 40), PElem.good (5, 50)]
    (⟨[(4, 40)], 1, by decide⟩ : FM ℕ ℕ) [PElem.good (5, 50)] (by decide) rfl

/-- C7: on a container satisfying the invariant, `at(k)` signals
`KeyNotFound` (the out_of_range throw of flat_map.h:306) exactly when no
stored entry's key equals `k` — for the `std::less` comparator over a
linear order, "neither key ordered before the other" is equality — and
when an entry with key `k` exists, `at` returns that entry's value.
`at` only reads the buffer (flat_map.h:302-309), so the model `atFM` is
a pure function of the state and the entries are unchanged by
construction. -/
theorem c7_at_keynotfound (s : FM K V) (k : K) (hs : SortedU s.data) :
    (atFM s k = .error () ↔ ∀ e ∈ s.data, e.1 ≠ k) ∧
    (∀ e ∈ s.data, e.1 = k → atFM s k = .ok e.2) := by
  have hbf := binary_find_spec s.data k hs
  constructor
  · unfold atFM
    rcases hb : binary_find s.data k with _ | e
    · exact iff_of_true rfl (hbf.1.1 hb)
    · refine iff_of_false (by simp) ?_
      intro hall
      rw [hbf.1.2 hall] at hb
      exact Option.noConfusion hb
  · intro e he hek
    unfold atFM
    rw [hbf.2 e he hek]

/-- Witness for C7 at a concrete container: a missing key and a present
key. -/
theorem c7_witness :
    ((atFM wmap 2 = .error () ↔ ∀ e ∈ wmap.data, e.1 ≠ 2) ∧
      (∀ e ∈ wmap.data, e.1 = 2 → atFM wmap 2 = .ok e.2)) ∧
    ((atFM wmap 3 = .error () ↔ ∀ e ∈ wmap.data, e.1 ≠ 3) ∧
      (∀ e ∈ wmap.data, e.1 = 3 → atFM wmap 3 = .ok e.2)) :=
  ⟨c7_at_keynotfound wmap 2 (by decide), c7_at_keynotfound wmap 3 (by decide)⟩

/-- C8: on a container satisfying the invariant, for every valid hint
position (from `begin()`, index 0, through `end()`, index `size()`) and
every candidate entry, `emplace_hint` (i) yields exactly the container
plain `emplace` of the same candidate yields, (ii) inserts — the size
grows by one — if and only if no entry with the candidate's key exists,
(iii) returns a position designating the entry whose key is the
candidate's, and (iv) when the entry at the hint already carries the
candidate's key, performs no insertion and returns the hint itself. -/
theorem c8_emplace_hint (s : FM K V) (hint : ℕ) (x : K × V)
    (hs : SortedU s.data) (hh : hint ≤ s.data.length) :
    (emplaceHint s hint x).2 = (emplaceP s x).2 ∧
    (((emplaceHint s hint x).2).data.length = s.data.length + 1 ↔
      ∀ e ∈ s.data, e.1 ≠ x.1) ∧
    (∃ v, ((emplaceHint s hint x).2).data[(emplaceHint s hint x).1]? =
      some (x.1, v)) ∧
    (∀ e, s.data[hint]? = some e → e.1 = x.1 →
      emplaceHint s hint x = (hint, s)) := by
  have hst := emplaceHint_state s hint x hs hh
  refine ⟨by rw [hst], ?_, ?_, ?_⟩
  · rw [hst]
    exact emplaceP_length_iff s x hs
  · rw [hst]
    exact emplaceP_pos s x
  · intro e he hex
    unfold emplaceHint
    rw [he]
    dsimp only
    rw [if_neg (by rw [hex]; exact lt_irrefl x.1),
      if_pos (show ¬ e.1 < x.1 from by rw [hex]; exact lt_irrefl x.1)]

/-- Witness for C8 at a concrete container, hint position 1, and a fresh
key between the stored keys. -/
theorem c8_witness :
    (emplaceHint wmap 1 (2, 20)).2 = (emplaceP wmap (2, 20)).2 ∧
    (((emplaceHint wmap 1 (2, 20)).2).data.length = wmap.data.length + 1 ↔
      ∀ e ∈ wmap.data, e.1 ≠ 2) ∧
    (∃ v, ((emplaceHint wmap 1 (2, 20)).2).data[(emplaceHint wmap 1 (2, 20)).1]? =
      some (2, v)) ∧
    (∀ e, wmap.data[1]? = some e → e.1 = 2 →
      emplaceHint wmap 1 (2, 20) = (1, wmap)) :=
  c8_emplace_hint wmap 1 (2, 20) (by decide) (by decide)

/-- C9: bulk insert terminates on every finite input range — every
outer-loop iteration that begins with non-empty remaining input hands
the tail-recursive call (flat_map.h:419) a strictly shorter remaining
input, so the recursion of `insertRangeE` is well founded on the input
length. -/
theorem c9_termination (s : FM K V) (l : List (PElem K V)) (t : FM K V)
    (l2 : List (PElem K V)) (hne : l ≠ []) (h : insertIterE s l = .ok (t, l2)) :
    l2.length < l.length :=
  insertIterE_progress s l t l2 h hne

/-- Witness for C9 at a concrete one-element input. -/
theorem c9_witness :
    ([] : List (PElem ℕ ℕ)).length < [PElem.good ((5 : ℕ), (50 : ℕ))].length :=
  c9_termination (⟨[], 0, by decide⟩ : FM ℕ ℕ) [PElem.good (5, 50)]
    (⟨[(5, 50)], 1, by decide⟩ : FM ℕ ℕ) [] (by simp) rfl

/-- C10: on a container satisfying the invariant, the no-argument
`emplace()` emplaces the value-initialized `value_type()` — the pair of
default-constructed key and value: the returned flag is true exactly
when no entry with the default key exists; on insertion the new buffer
is the old one with the default entry placed at its lower-bound
position; the returned position designates the entry carrying the
default key; and when an entry with the default key already exists the
container is unchanged. -/
theorem c10_emplace_default [Inhabited K] [Inhabited V] (s : FM K V)
    (hs : SortedU s.data) :
    ((emplaceNoArgs s).1.2 = true ↔ ∀ e ∈ s.data, e.1 ≠ (default : K)) ∧
    ((emplaceNoArgs s).1.2 = true →
      ((emplaceNoArgs s).2).data =
        s.data.insertIdx (lbIdx s.data (default : K))
          ((default : K), (default : V))) ∧
    (∃ v, ((emplaceNoArgs s).2).data[(emplaceNoArgs s).1.1]? =
      some ((default : K), v)) ∧
    ((emplaceNoArgs s).1.2 = false → (emplaceNoArgs s).2 = s) := by
  refine ⟨emplaceP_inserted_iff s _ hs, ?_, emplaceP_pos s _, emplaceP_not_inserted s _⟩
  intro h
  exact emplaceP_inserted_data s _ h

/-- Witness for C10 at a concrete container not containing the default
key 0. -/
theorem c10_witness :
    ((emplaceNoArgs wmap).1.2 = true ↔ ∀ e ∈ wmap.data, e.1 ≠ 0) ∧
    ((emplaceNoArgs wmap).1.2 = true →
      ((emplaceNoArgs wmap).2).data =
        wmap.data.insertIdx (lbIdx wmap.data 0) (0, 0)) ∧
    (∃ v, ((emplaceNoArgs wmap).2).data[(emplaceNoArgs wmap).1.1]? =
      some (0, v)) ∧
    ((emplaceNoArgs wmap).1.2 = false → (emplaceNoArgs wmap).2 = wmap) :=
  c10_emplace_default wmap (by decide)

end FlatMap
